import Mathlib

/-!
Shallow embedding of the `text_lines` crate (src/lib.rs): a position
translation index over a single immutable UTF-8 text.

Modelling choices:
* a text is a `List Char` (Unicode scalar values, exactly Rust's `char`);
  byte offsets are `Nat`, computed from the UTF-8 encoded length of each
  character (`charLen`, the value of Rust's `char::len_utf8`);
* Rust panics (the explicit asserts and `Vec` indexing) are modelled as
  `Except String` / `Option` results carrying the panic message;
* `usize` subtractions that cannot underflow on reachable inputs are
  modelled with truncated `Nat` subtraction; where a claim depends on the
  absence of underflow we prove the corresponding `≤` fact.
-/

/-- UTF-8 encoded length of a character, the value of Rust's
`char::len_utf8` (1 for scalar values below 0x80, 2 below 0x800,
3 below 0x10000, otherwise 4). -/
def charLen (c : Char) : Nat :=
  if c.val < 0x80 then 1 else if c.val < 0x800 then 2 else if c.val < 0x10000 then 3 else 4

/-- Total byte length of a text, Rust's `str::len` for the encoded string. -/
def byteLen : List Char → Nat
  | [] => 0
  | c :: rest => charLen c + byteLen rest

/-- Embeds `const BOM_CHAR: char = '\u{FEFF}';` (lib.rs line 1). -/
def BOM_CHAR : Char := '\uFEFF'

/-- lib.rs lines 8-13. -/
structure LineAndColumnIndex where
  line_index : Nat
  column_index : Nat
  deriving DecidableEq, Repr

/-- lib.rs lines 20-25. -/
structure LineAndColumnDisplay where
  line_number : Nat
  column_number : Nat
  deriving DecidableEq, Repr

/-- lib.rs lines 28-34. -/
structure MultiByteCharInfo where
  byte_index : Nat
  line_char_index : Nat
  length : Nat
  deriving DecidableEq, Repr

/-- lib.rs lines 37-42. -/
structure TextLine where
  start_index : Nat
  end_index : Nat
  multi_byte_chars : List MultiByteCharInfo
  tab_chars : List Nat
  deriving DecidableEq, Repr

/-- lib.rs lines 45-48. -/
structure TextLines where
  lines : List TextLine
  indent_width : Nat
  deriving DecidableEq, Repr

/-- The mutable state of the construction loop in `with_indent_width`
(lib.rs lines 61-99): the local variables of the `for` loop. -/
structure BuildState where
  last_line_start : Nat
  multi_byte_chars : List MultiByteCharInfo
  tab_chars : List Nat
  lines : List TextLine
  was_last_slash_r : Bool
  line_char_index : Nat
  deriving DecidableEq, Repr

/-- One iteration of the `for (char_index, (byte_index, c))` loop body of
`with_indent_width` (lib.rs lines 71-99).  `b` is the byte index of `c`,
`ci` its character index in the whole text. -/
def buildStep (b ci : Nat) (c : Char) (s : BuildState) : BuildState :=
  if b = 0 ∧ c = BOM_CHAR then s
  else if c = '\n' then
    ⟨b + 1, [], [],
      s.lines ++ [⟨s.last_line_start, if s.was_last_slash_r then b - 1 else b,
        s.multi_byte_chars, s.tab_chars⟩],
      decide (c = '\r'), ci + 1⟩
  else if c = '\t' then
    ⟨s.last_line_start, s.multi_byte_chars, s.tab_chars ++ [b], s.lines,
      decide (c = '\r'), s.line_char_index⟩
  else if 1 < charLen c then
    ⟨s.last_line_start,
      s.multi_byte_chars ++ [⟨b, ci - s.line_char_index, charLen c⟩],
      s.tab_chars, s.lines, decide (c = '\r'), s.line_char_index⟩
  else
    ⟨s.last_line_start, s.multi_byte_chars, s.tab_chars, s.lines,
      decide (c = '\r'), s.line_char_index⟩

/-- The whole `for` loop of `with_indent_width`, threading the running byte
index and character index of `char_indices().enumerate()`. -/
def buildLoop : List Char → Nat → Nat → BuildState → BuildState
  | [], _, _, s => s
  | c :: rest, b, ci, s => buildLoop rest (b + charLen c) (ci + 1) (buildStep b ci c s)

namespace TextLines

/-- Embeds `TextLines::with_indent_width` (lib.rs lines 60-112). -/
def with_indent_width (text : List Char) (indent_width : Nat) : TextLines :=
  let startBom : Bool := match text with
    | c :: _ => decide (c = BOM_CHAR)
    | [] => false
  let init : BuildState :=
    ⟨if startBom then charLen BOM_CHAR else 0, [], [], [], false, 0⟩
  let s := buildLoop text 0 0 init
  ⟨s.lines ++ [⟨s.last_line_start, byteLen text, s.multi_byte_chars, s.tab_chars⟩],
    indent_width⟩

/-- Embeds `TextLines::new` (lib.rs lines 53-55). -/
def new (text : List Char) : TextLines :=
  with_indent_width text 4

/-- Embeds `TextLines::lines_count` (lib.rs lines 115-117). -/
def lines_count (tl : TextLines) : Nat := tl.lines.length

/-- Embeds `TextLines::text_length` (lib.rs lines 120-122):
`self.lines.last().unwrap().end_index`.  Constructed indexes always hold at
least one line; the unreachable empty case is modelled as 0. -/
def text_length (tl : TextLines) : Nat :=
  match tl.lines.getLast? with
  | some l => l.end_index
  | none => 0

/-- The message of the byte-index precondition failure (lib.rs lines 283-287). -/
def byteIndexMessage (b len : Nat) : String :=
  "The specified byte index " ++ toString b ++
    " was greater than the text length of " ++ toString len ++ "."

/-- The message of the line-index precondition failure (lib.rs lines 293-297). -/
def lineIndexMessage (i n : Nat) : String :=
  "The specified line index " ++ toString i ++
    " was greater or equal to the number of lines of " ++ toString n ++ "."

/-- Embeds `assert_valid_byte_index` (lib.rs lines 281-289); the panic becomes an
`Except.error` carrying the panic message. -/
def assert_valid_byte_index (tl : TextLines) (b : Nat) : Except String Unit :=
  if text_length tl < b then Except.error (byteIndexMessage b (text_length tl))
  else Except.ok ()

/-- Embeds `assert_valid_line_index` (lib.rs lines 291-299). -/
def assert_valid_line_index (tl : TextLines) (i : Nat) : Except String Unit :=
  if tl.lines.length ≤ i then Except.error (lineIndexMessage i tl.lines.length)
  else Except.ok ()

/-- The message of a failed `Vec` index, which on constructed indexes is
unreachable in the places where this model uses it. -/
def vecIndexMessage : String := "index out of bounds"

/-- Embeds `TextLines::line_index` (lib.rs lines 127-143).  The Rust code runs
`binary_search_by_key(&byte_index, |line| line.start_index)` on the lines;
in a constructed index the `start_index` keys are strictly ascending, so by
the documented contract of `binary_search_by_key` it yields `Ok i` exactly
when `start_index` of line `i` equals `byte_index`, and otherwise
`Err insert` where `insert` is the number of lines whose `start_index` is
below `byte_index`.  Combined with the `Ok`/`Err` arms of the `match`
(`Ok i => i`, `Err 0 => 0`, `Err insert => insert - 1`) the returned value
is in every case the number of lines with `start_index ≤ byte_index` minus
one, where the `Err 0` case (only possible at a BOM) is exactly the
truncation of `Nat` subtraction. -/
def line_index (tl : TextLines) (b : Nat) : Except String Nat :=
  match assert_valid_byte_index tl b with
  | Except.error e => Except.error e
  | Except.ok _ =>
    Except.ok (tl.lines.countP (fun l => decide (l.start_index ≤ b)) - 1)

/-- Embeds `TextLines::line_start` (lib.rs lines 146-149). -/
def line_start (tl : TextLines) (i : Nat) : Except String Nat :=
  match assert_valid_line_index tl i with
  | Except.error e => Except.error e
  | Except.ok _ =>
    match tl.lines.get? i with
    | some l => Except.ok l.start_index
    | none => Except.error vecIndexMessage

/-- Embeds `TextLines::line_end` (lib.rs lines 152-155). -/
def line_end (tl : TextLines) (i : Nat) : Except String Nat :=
  match assert_valid_line_index tl i with
  | Except.error e => Except.error e
  | Except.ok _ =>
    match tl.lines.get? i with
    | some l => Except.ok l.end_index
    | none => Except.error vecIndexMessage

/-- Embeds `TextLines::line_range` (lib.rs lines 158-162). -/
def line_range (tl : TextLines) (i : Nat) : Except String (Nat × Nat) :=
  match assert_valid_line_index tl i with
  | Except.error e => Except.error e
  | Except.ok _ =>
    match tl.lines.get? i with
    | some l => Except.ok (l.start_index, l.end_index)
    | none => Except.error vecIndexMessage

/-- The `for char_info in line.multi_byte_chars` loop of `byte_index`
(lib.rs lines 169-176): add `length - 1` for every multi-byte character
whose `line_char_index` is below the column, stopping at the first one that
is not (`break`). -/
def byteIndexAdd : List MultiByteCharInfo → Nat → Nat
  | [], _ => 0
  | ci :: rest, col =>
    if ci.line_char_index < col then (ci.length - 1) + byteIndexAdd rest col else 0

/-- Embeds `TextLines::byte_index` (lib.rs lines 165-184).  The unchecked
`self.lines[..]` access is modelled with `get?`; the final `if` clamps the
result to the line end. -/
def byte_index (tl : TextLines) (lc : LineAndColumnIndex) : Option Nat :=
  match tl.lines.get? lc.line_index with
  | none => none
  | some line =>
    let bi := line.start_index + lc.column_index +
      byteIndexAdd line.multi_byte_chars lc.column_index
    some (if line.end_index < bi then line.end_index else bi)

/-- The `for char_info in &line.multi_byte_chars` loop of
`byte_index_from_char_index` (lib.rs lines 193-203).  `Except.error r`
models the early `return r`; `Except.ok` is the fallthrough carrying the
updated `(last_char_index, last_byte_index)` pair. -/
def scanMultiByte : List MultiByteCharInfo → Nat → Nat → Nat → Except Nat (Nat × Nat)
  | [], _, lastChar, lastByte => Except.ok (lastChar, lastByte)
  | ci :: rest, char_index, lastChar, lastByte =>
    let char_length := ci.byte_index - lastByte
    if char_index ≤ lastChar + char_length then
      Except.error (lastByte + (char_index - lastChar))
    else
      scanMultiByte rest char_index (lastChar + char_length + 1) (ci.byte_index + ci.length)

/-- The `while let Some(line) = lines.next()` loop of
`byte_index_from_char_index` (lib.rs lines 192-219): the peeked
`next_line.start_index` is the head of the remaining lines. -/
def scanLines : List TextLine → Nat → Nat → Nat → Nat
  | [], _, _, lastByte => lastByte
  | line :: rest, char_index, lastChar, lastByte =>
    match scanMultiByte line.multi_byte_chars char_index lastChar lastByte with
    | Except.error r => r
    | Except.ok (lc, lb) =>
      let lineEnd := match rest with
        | next :: _ => next.start_index
        | [] => line.end_index
      let char_length := lineEnd - lb
      if char_index ≤ lc + char_length then lb + (char_index - lc)
      else scanLines rest char_index (lc + char_length) lineEnd

/-- Embeds `TextLines::byte_index_from_char_index` (lib.rs lines 187-222). -/
def byte_index_from_char_index (tl : TextLines) (char_index : Nat) : Nat :=
  scanLines tl.lines char_index 0 0

/-- The `take_while`/`map`/`sum` pipeline of `line_and_column_index`
(lib.rs lines 235-246): the byte overcount of the multi-byte characters
that start before `b`. -/
def mbOvercount (mbcs : List MultiByteCharInfo) (b : Nat) : Nat :=
  ((mbcs.takeWhile (fun ci => decide (ci.byte_index < b))).map
    (fun ci => if b < ci.byte_index + ci.length then b - ci.byte_index
               else ci.length - 1)).sum

/-- Embeds `TextLines::line_and_column_index` (lib.rs lines 225-252). -/
def line_and_column_index (tl : TextLines) (b : Nat) :
    Except String LineAndColumnIndex :=
  match line_index tl b with
  | Except.error e => Except.error e
  | Except.ok li =>
    match tl.lines.get? li with
    | none => Except.error vecIndexMessage
    | some line =>
      let rel := if b < line.start_index then 0 else b - line.start_index
      Except.ok ⟨li, rel - mbOvercount line.multi_byte_chars b⟩

/-- Embeds `TextLines::line_and_column_display_with_indent_width`
(lib.rs lines 260-279). -/
def line_and_column_display_with_indent_width (tl : TextLines) (b iw : Nat) :
    Except String LineAndColumnDisplay :=
  match line_and_column_index tl b with
  | Except.error e => Except.error e
  | Except.ok lc =>
    match tl.lines.get? lc.line_index with
    | none => Except.error vecIndexMessage
    | some line =>
      let tabCount := (line.tab_chars.takeWhile (fun t => decide (t < b))).length
      Except.ok ⟨lc.line_index + 1,
        lc.column_index - tabCount + tabCount * iw + 1⟩

/-- Embeds `TextLines::line_and_column_display` (lib.rs lines 255-257). -/
def line_and_column_display (tl : TextLines) (b : Nat) :
    Except String LineAndColumnDisplay :=
  line_and_column_display_with_indent_width tl b tl.indent_width

end TextLines

/-! ### Spec-level vocabulary about texts

The following definitions are not part of the embedded program; they give
the vocabulary in which the claims speak about a text: byte positions of
its characters, character boundaries, the character at a byte offset, and
character counts over byte ranges. -/

/-- The byte positions of the characters of a text, starting at byte `p`. -/
def charPositions : List Char → Nat → List Nat
  | [], _ => []
  | c :: rest, p => p :: charPositions rest (p + charLen c)

/-- The character starting exactly at byte offset `b`, if any (`none` both
past the end of the text and strictly inside a character's encoding). -/
def charAtByte : List Char → Nat → Option Char
  | [], _ => none
  | c :: rest, b =>
    if b = 0 then some c
    else if b < charLen c then none
    else charAtByte rest (b - charLen c)

/-- Offset `b` lies on a character boundary of the text: it is the starting byte
of some character, or the total byte length. -/
def CharBoundary (text : List Char) (b : Nat) : Prop :=
  b ∈ charPositions text 0 ∨ b = byteLen text

instance (text : List Char) (b : Nat) : Decidable (CharBoundary text b) :=
  inferInstanceAs (Decidable (_ ∨ _))

/-- The number of characters of the text whose starting byte lies in
`[lo, hi)`. -/
def charsIn (text : List Char) (lo hi : Nat) : Nat :=
  ((charPositions text 0).filter (fun q => decide (lo ≤ q) && decide (q < hi))).length

/-- The number of entries of a list below `b`. -/
def countLt (tb : List Nat) (b : Nat) : Nat :=
  tb.countP (fun t => decide (t < b))

/-- The text does not start with the UTF-8 BOM character. -/
def headIsnBom : List Char → Prop
  | [] => True
  | c :: _ => c ≠ BOM_CHAR

instance : ∀ (cs : List Char), Decidable (headIsnBom cs)
  | [] => isTrue trivial
  | c :: _ => inferInstanceAs (Decidable (c ≠ BOM_CHAR))

/-- Sum of `length - 1` over a list of multi-byte character records. -/
def sumLen1 (mbcs : List MultiByteCharInfo) : Nat :=
  (mbcs.map (fun m => m.length - 1)).sum

/-- Spec-level recursion describing the lines that the construction loop
still produces from the remaining characters `cs` located at byte offset
`b`, where the current line started at byte `st` and has accumulated the
multi-byte records `mb` and tab offsets `tb`, `lastCR` tells whether the
previously scanned character was `'\r'`, `k` is the running character
index within the current line, and `total` is the byte length of the whole
text (the `end_index` of the final line). -/
def linesFrom : List Char → Nat → Nat → List MultiByteCharInfo → List Nat →
    Bool → Nat → Nat → List TextLine
  | [], _, st, mb, tb, _, _, total => [⟨st, total, mb, tb⟩]
  | c :: rest, b, st, mb, tb, lastCR, k, total =>
    if c = '\n' then
      ⟨st, if lastCR then b - 1 else b, mb, tb⟩ ::
        linesFrom rest (b + 1) (b + 1) [] [] false 0 total
    else if c = '\t' then
      linesFrom rest (b + 1) st mb (tb ++ [b]) false (k + 1) total
    else if 1 < charLen c then
      linesFrom rest (b + charLen c) st (mb ++ [⟨b, k, charLen c⟩]) tb
        (decide (c = '\r')) (k + 1) total
    else
      linesFrom rest (b + charLen c) st mb tb (decide (c = '\r')) (k + 1) total

/-- Two consecutive lines of an index are connected: the earlier line is
terminated either by a `'\n'` sitting at its `end_index` (the next line
starts one byte later) or by a `"\r\n"` whose `'\r'` sits at its
`end_index` (the next line starts two bytes later). -/
def LineConn (text : List Char) (x y : TextLine) : Prop :=
  (charAtByte text x.end_index = some '\n' ∧ y.start_index = x.end_index + 1) ∨
  (charAtByte text x.end_index = some '\r' ∧
    charAtByte text (x.end_index + 1) = some '\n' ∧
    y.start_index = x.end_index + 2)

/-- All facts a single constructed line enjoys, relative to the text it was
built from.  `cover` is the last byte offset the line is responsible for:
the byte offset of the terminating `'\n'` for a terminated line, `total`
for the final line.  `k0` is the offset of the recorded `line_char_index`
values (1 on the first line of a text with a BOM, 0 everywhere else). -/
structure LineOK (text : List Char) (total k0 : Nat) (l : TextLine)
    (cover : Nat) : Prop where
  start_le_end : l.start_index ≤ l.end_index
  end_le_cover : l.end_index ≤ cover
  cover_le : cover ≤ l.end_index + 1
  cover_le_total : cover ≤ total
  start_bound : CharBoundary text l.start_index
  end_bound : CharBoundary text l.end_index
  crlf : l.end_index + 1 = cover →
    charAtByte text l.end_index = some '\r' ∧ charAtByte text cover = some '\n'
  tabs_sorted : List.Pairwise (fun t1 t2 => t1 < t2) l.tab_chars
  tabs_mem : ∀ t ∈ l.tab_chars, l.start_index ≤ t ∧ t < cover
  mbcs_sorted : List.Pairwise (fun m1 m2 => m1.byte_index + m1.length ≤ m2.byte_index)
    l.multi_byte_chars
  mbcs_mem : ∀ m ∈ l.multi_byte_chars,
    l.start_index ≤ m.byte_index ∧ m.byte_index + m.length ≤ cover ∧ 2 ≤ m.length ∧
    m.byte_index ∈ charPositions text 0 ∧
    (∀ q ∈ charPositions text 0, m.byte_index < q → m.byte_index + m.length ≤ q) ∧
    m.byte_index + m.length ≤ byteLen text ∧
    m.line_char_index = k0 + charsIn text l.start_index m.byte_index
  count_le : ∀ bq, l.start_index ≤ bq → bq ≤ cover →
    countLt l.tab_chars bq + TextLines.mbOvercount l.multi_byte_chars bq + l.start_index ≤ bq
  chars_eq : ∀ bq, l.start_index ≤ bq → bq ≤ cover → CharBoundary text bq →
    charsIn text l.start_index bq + TextLines.mbOvercount l.multi_byte_chars bq + l.start_index = bq

/-- Asserts `LineOK` for every line of a list, each line covering the bytes up to
one before the next line's start, the last line covering up to `total`;
only the first line may carry a nonzero `k0`. -/
def LinesOK (text : List Char) (total : Nat) : Nat → List TextLine → Prop
  | _, [] => True
  | k0, [l] => LineOK text total k0 l total
  | k0, l :: l2 :: ls =>
    LineOK text total k0 l (l2.start_index - 1) ∧ LinesOK text total 0 (l2 :: ls)

/-- Record-wise byte shift of a multi-byte character record (the
`line_char_index` field is not constrained: it does not participate in any
byte-offset computation of `byte_index_from_char_index`). -/
def MbcShift (d : Nat) (m m2 : MultiByteCharInfo) : Prop :=
  m2.byte_index = m.byte_index + d ∧ m2.length = m.length

/-- Line-wise byte shift of everything `byte_index_from_char_index` reads. -/
def LineShift (d : Nat) (l l2 : TextLine) : Prop :=
  l2.start_index = l.start_index + d ∧ l2.end_index = l.end_index + d ∧
  List.Forall₂ (MbcShift d) l.multi_byte_chars l2.multi_byte_chars

/-- List-wise byte shift of a line table. -/
def LinesShift (d : Nat) : List TextLine → List TextLine → Prop :=
  List.Forall₂ (LineShift d)

/-- The multi-byte records form a chain of disjoint non-empty spans lying
between the byte offsets `lo` and `hi`. -/
def MbChain : Nat → List MultiByteCharInfo → Nat → Prop
  | lo, [], hi => lo ≤ hi
  | lo, m :: rest, hi =>
    lo ≤ m.byte_index ∧ 1 ≤ m.length ∧ MbChain (m.byte_index + m.length) rest hi

/-- Sanity: the crate's `line_start`/`line_end` tests on `"12\n3\r\n4\n5"`
(lib.rs lines 448-478). -/
theorem sanity_line_start_end :
    TextLines.line_start (TextLines.new ("12\n3\r\n4\n5").data) 2 = Except.ok 6 ∧
    TextLines.line_end (TextLines.new ("12\n3\r\n4\n5").data) 1 = Except.ok 4 := by
  constructor <;> rfl

/-- Sanity: the crate's `line_and_column_index_multi_byte_chars` test
(lib.rs lines 337-352), two of its cases. -/
theorem sanity_lci_multibyte :
    TextLines.line_and_column_index (TextLines.new ("β1β\nΔβ1").data) 5 =
      Except.ok ⟨0, 3⟩ ∧
    TextLines.line_and_column_index (TextLines.new ("β1β\nΔβ1").data) 9 =
      Except.ok ⟨1, 1⟩ := by
  constructor <;> rfl

/-- Sanity: the crate's `byte_index_from_char_index_multi_byte_chars` test
(lib.rs lines 573-590), three of its cases. -/
theorem sanity_bifci :
    TextLines.byte_index_from_char_index (TextLines.new ("β1β\nΔβ1\r\nt\nu").data) 5 = 8 ∧
    TextLines.byte_index_from_char_index (TextLines.new ("β1β\nΔβ1\r\nt\nu").data) 8 = 12 ∧
    TextLines.byte_index_from_char_index (TextLines.new ("β1β\nΔβ1\r\nt\nu").data) 13 = 16 := by
  refine ⟨rfl, rfl, rfl⟩

/-- Sanity: the crate's `line_and_column_display_with_indent_width` test
(lib.rs lines 421-438). -/
theorem sanity_display :
    TextLines.line_and_column_display_with_indent_width
      (TextLines.new ("\t1\n\t 3\t4").data) 1 2 = Except.ok ⟨1, 3⟩ ∧
    TextLines.line_and_column_display (TextLines.new ("\t1\n\t 3\t4").data) 7 =
      Except.ok ⟨2, 11⟩ := by
  constructor <;> rfl

/-! ### Basic facts about the text vocabulary -/

theorem charLen_pos (c : Char) : 0 < charLen c := by
  unfold charLen
  split
  · decide
  split
  · decide
  split
  · decide
  · decide

theorem byteLen_append (l1 l2 : List Char) :
    byteLen (l1 ++ l2) = byteLen l1 + byteLen l2 := by
  induction l1 with
  | nil => simp [byteLen]
  | cons c rest ih => simp [byteLen, ih, Nat.add_assoc]

theorem charPositions_append (l1 l2 : List Char) (p : Nat) :
    charPositions (l1 ++ l2) p =
      charPositions l1 p ++ charPositions l2 (p + byteLen l1) := by
  induction l1 generalizing p with
  | nil => simp [charPositions, byteLen]
  | cons c rest ih => simp [charPositions, byteLen, ih, Nat.add_assoc]

theorem charPositions_mem_lb :
    ∀ (cs : List Char) (p q : Nat), q ∈ charPositions cs p → p ≤ q
  | [], _, _, h => absurd h (List.not_mem_nil _)
  | c :: rest, p, q, h => by
    rcases List.mem_cons.mp h with rfl | h2
    · exact Nat.le_refl _
    · have := charPositions_mem_lb rest (p + charLen c) q h2
      omega

theorem charPositions_mem_ub :
    ∀ (cs : List Char) (p q : Nat), q ∈ charPositions cs p → q < p + byteLen cs
  | [], _, _, h => absurd h (List.not_mem_nil _)
  | c :: rest, p, q, h => by
    have hc := charLen_pos c
    rcases List.mem_cons.mp h with rfl | h2
    · simp [byteLen]
      omega
    · have := charPositions_mem_ub rest (p + charLen c) q h2
      simp [byteLen]
      omega

theorem charAtByte_append :
    ∀ (pre cs : List Char) (off : Nat),
      charAtByte (pre ++ cs) (byteLen pre + off) = charAtByte cs off
  | [], cs, off => by simp [byteLen]
  | c :: rest, cs, off => by
    have h1 : 0 < charLen c := charLen_pos c
    have h2 : byteLen (c :: rest) + off = charLen c + (byteLen rest + off) := by
      simp [byteLen]
      omega
    rw [List.cons_append, h2]
    simp only [charAtByte]
    rw [if_neg (by omega), if_neg (by omega)]
    have h3 : charLen c + (byteLen rest + off) - charLen c = byteLen rest + off := by
      omega
    rw [h3, charAtByte_append rest cs off]

theorem charAtByte_at (pre : List Char) (c : Char) (cs : List Char) :
    charAtByte (pre ++ c :: cs) (byteLen pre) = some c := by
  have h := charAtByte_append pre (c :: cs) 0
  simpa [charAtByte] using h

theorem charAtByte_none_of_ge :
    ∀ (cs : List Char) (b : Nat), byteLen cs ≤ b → charAtByte cs b = none
  | [], _, _ => rfl
  | c :: rest, b, h => by
    have h1 := charLen_pos c
    simp [byteLen] at h
    simp only [charAtByte]
    rw [if_neg (by omega), if_neg (by omega)]
    exact charAtByte_none_of_ge rest (b - charLen c) (by omega)

theorem charBoundary_at (pre cs : List Char) : CharBoundary (pre ++ cs) (byteLen pre) := by
  cases cs with
  | nil =>
    refine Or.inr ?_
    simp [byteLen_append, byteLen]
  | cons c rest =>
    refine Or.inl ?_
    rw [charPositions_append]
    simp [charPositions]

theorem charPositions_mem_at (pre : List Char) (c : Char) (cs : List Char) :
    byteLen pre ∈ charPositions (pre ++ c :: cs) 0 := by
  rw [charPositions_append]
  simp [charPositions]

theorem not_charBoundary_inside (pre : List Char) (c : Char) (cs : List Char) (x : Nat)
    (h1 : byteLen pre < x) (h2 : x < byteLen pre + charLen c) :
    ¬ CharBoundary (pre ++ c :: cs) x := by
  intro h
  rcases h with hmem | heq
  · rw [charPositions_append] at hmem
    rcases List.mem_append.mp hmem with hx | hx
    · have := charPositions_mem_ub pre 0 x hx
      omega
    · simp only [charPositions, List.mem_cons] at hx
      rcases hx with rfl | hx
      · omega
      · have := charPositions_mem_lb _ _ x hx
        omega
  · rw [byteLen_append] at heq
    simp [byteLen] at heq
    omega

/-! ### Counting helpers -/

theorem countP_mono {α : Type} : ∀ (L : List α) (p1 p2 : α → Bool),
    (∀ x ∈ L, p1 x = true → p2 x = true) → L.countP p1 ≤ L.countP p2
  | [], _, _, _ => Nat.le_refl _
  | a :: L, p1, p2, h => by
    rw [List.countP_cons, List.countP_cons]
    have ih := countP_mono L p1 p2 (fun x hx => h x (List.mem_cons_of_mem a hx))
    by_cases h1 : p1 a = true
    · rw [h1, h a (List.mem_cons_self a L) h1]
      omega
    · rw [Bool.eq_false_iff.mpr h1]
      have : (if p2 a = true then 1 else 0) ≤ 1 := by
        by_cases h2 : p2 a = true <;> simp [h2]
      simp only [if_false, Bool.false_eq_true]
      omega

theorem countP_lt_of_mem {α : Type} : ∀ (L : List α) (p1 p2 : α → Bool) (a : α),
    a ∈ L → (∀ x ∈ L, p1 x = true → p2 x = true) → p2 a = true → p1 a = false →
    L.countP p1 < L.countP p2
  | [], _, _, _, ha, _, _, _ => absurd ha (List.not_mem_nil _)
  | b :: L, p1, p2, a, ha, h, h2, h3 => by
    rw [List.countP_cons, List.countP_cons]
    rcases List.mem_cons.mp ha with rfl | ha2
    · have hm := countP_mono L p1 p2 (fun x hx => h x (List.mem_cons_of_mem _ hx))
      rw [h2, h3]
      simp only [if_true, Bool.false_eq_true, if_false]
      omega
    · have ih := countP_lt_of_mem L p1 p2 a ha2
        (fun x hx => h x (List.mem_cons_of_mem _ hx)) h2 h3
      have : (if p1 b = true then 1 else 0) ≤ (if p2 b = true then 1 else 0) := by
        by_cases hb : p1 b = true
        · simp [hb, h b (List.mem_cons_self _ _) hb]
        · simp [hb]
      omega

theorem countP_congr_mem {α : Type} : ∀ (L : List α) (p1 p2 : α → Bool),
    (∀ x ∈ L, p1 x = p2 x) → L.countP p1 = L.countP p2
  | [], _, _, _ => rfl
  | a :: L, p1, p2, h => by
    rw [List.countP_cons, List.countP_cons, h a (List.mem_cons_self _ _),
      countP_congr_mem L p1 p2 (fun x hx => h x (List.mem_cons_of_mem _ hx))]

theorem charsIn_eq_countP (text : List Char) (lo hi : Nat) :
    charsIn text lo hi =
      (charPositions text 0).countP (fun q => decide (lo ≤ q) && decide (q < hi)) := by
  unfold charsIn
  rw [List.countP_eq_length_filter]

theorem charsIn_zero_of_le (text : List Char) (lo hi : Nat) (h : hi ≤ lo) :
    charsIn text lo hi = 0 := by
  rw [charsIn_eq_countP]
  apply List.countP_eq_zero.mpr
  intro q _
  simp only [Bool.and_eq_true, decide_eq_true_eq, not_and]
  omega

theorem charsIn_mono (text : List Char) (lo hi1 hi2 : Nat) (h : hi1 ≤ hi2) :
    charsIn text lo hi1 ≤ charsIn text lo hi2 := by
  rw [charsIn_eq_countP, charsIn_eq_countP]
  apply countP_mono
  intro x _ hp
  simp only [Bool.and_eq_true, decide_eq_true_eq] at hp ⊢
  omega

theorem charsIn_lt (text : List Char) (lo q hi : Nat)
    (hq : q ∈ charPositions text 0) (h1 : lo ≤ q) (h2 : q < hi) :
    charsIn text lo q < charsIn text lo hi := by
  rw [charsIn_eq_countP, charsIn_eq_countP]
  apply countP_lt_of_mem _ _ _ q hq
  · intro x _ hp
    simp only [Bool.and_eq_true, decide_eq_true_eq] at hp ⊢
    omega
  · simp only [Bool.and_eq_true, decide_eq_true_eq]
    omega
  · simp only [Bool.and_eq_false_iff, decide_eq_false_iff_not]
    omega

theorem charsIn_succ (pre : List Char) (c : Char) (cs : List Char) (st : Nat)
    (hst : st ≤ byteLen pre) :
    charsIn (pre ++ c :: cs) st (byteLen pre + charLen c) =
      charsIn (pre ++ c :: cs) st (byteLen pre) + 1 := by
  have hc := charLen_pos c
  rw [charsIn_eq_countP, charsIn_eq_countP, charPositions_append]
  simp only [charPositions, Nat.zero_add]
  rw [List.countP_append, List.countP_append, List.countP_cons, List.countP_cons]
  have hpre : (charPositions pre 0).countP
        (fun q => decide (st ≤ q) && decide (q < byteLen pre + charLen c)) =
      (charPositions pre 0).countP
        (fun q => decide (st ≤ q) && decide (q < byteLen pre)) := by
    apply countP_congr_mem
    intro q hq
    have := charPositions_mem_ub pre 0 q hq
    have e1 : decide (q < byteLen pre + charLen c) = true := by
      simp only [decide_eq_true_eq]
      omega
    have e2 : decide (q < byteLen pre) = true := by
      simp only [decide_eq_true_eq]
      omega
    rw [e1, e2]
  have hcs1 : (charPositions cs (byteLen pre + charLen c)).countP
      (fun q => decide (st ≤ q) && decide (q < byteLen pre + charLen c)) = 0 := by
    apply List.countP_eq_zero.mpr
    intro q hq
    have := charPositions_mem_lb cs (byteLen pre + charLen c) q hq
    simp only [Bool.and_eq_true, decide_eq_true_eq, not_and]
    omega
  have hcs2 : (charPositions cs (byteLen pre + charLen c)).countP
      (fun q => decide (st ≤ q) && decide (q < byteLen pre)) = 0 := by
    apply List.countP_eq_zero.mpr
    intro q hq
    have := charPositions_mem_lb cs (byteLen pre + charLen c) q hq
    simp only [Bool.and_eq_true, decide_eq_true_eq, not_and]
    omega
  have hh1 : (decide (st ≤ byteLen pre) && decide (byteLen pre < byteLen pre + charLen c)) = true := by
    simp only [Bool.and_eq_true, decide_eq_true_eq]
    omega
  have hh2 : (decide (st ≤ byteLen pre) && decide (byteLen pre < byteLen pre)) = false := by
    simp only [Bool.and_eq_false_iff, decide_eq_false_iff_not]
    omega
  rw [hpre, hcs1, hcs2, hh1, hh2]
  simp

/-! ### takeWhile and overcount helpers -/

theorem takeWhile_eq_self {α : Type} : ∀ (L : List α) (p : α → Bool),
    (∀ x ∈ L, p x = true) → L.takeWhile p = L
  | [], _, _ => rfl
  | a :: L, p, h => by
    rw [List.takeWhile_cons, h a (List.mem_cons_self _ _)]
    simp only [if_true]
    rw [takeWhile_eq_self L p (fun x hx => h x (List.mem_cons_of_mem _ hx))]

theorem mbOvercount_cons_ge (m : MultiByteCharInfo) (mb : List MultiByteCharInfo) (b : Nat)
    (h : b ≤ m.byte_index) : TextLines.mbOvercount (m :: mb) b = 0 := by
  unfold TextLines.mbOvercount
  rw [List.takeWhile_cons]
  have : decide (m.byte_index < b) = false := by
    simp only [decide_eq_false_iff_not]
    omega
  rw [this]
  rfl

theorem mbOvercount_cons_lt (m : MultiByteCharInfo) (mb : List MultiByteCharInfo) (b : Nat)
    (h : m.byte_index < b) :
    TextLines.mbOvercount (m :: mb) b =
      (if b < m.byte_index + m.length then b - m.byte_index else m.length - 1) +
        TextLines.mbOvercount mb b := by
  unfold TextLines.mbOvercount
  rw [List.takeWhile_cons]
  have : decide (m.byte_index < b) = true := by
    simp only [decide_eq_true_eq]
    exact h
  rw [this]
  simp

theorem mbOvercount_zero_of_ge (mb : List MultiByteCharInfo) (b : Nat)
    (h : ∀ x ∈ mb, b ≤ x.byte_index) : TextLines.mbOvercount mb b = 0 := by
  cases mb with
  | nil => rfl
  | cons m mb => exact mbOvercount_cons_ge m mb b (h m (List.mem_cons_self _ _))

theorem mbOvercount_append_ge : ∀ (mb : List MultiByteCharInfo) (m : MultiByteCharInfo) (b : Nat),
    b ≤ m.byte_index → TextLines.mbOvercount (mb ++ [m]) b = TextLines.mbOvercount mb b
  | [], m, b, h => by
    rw [List.nil_append, mbOvercount_cons_ge m [] b h]
    rfl
  | m1 :: mb, m, b, h => by
    by_cases h1 : m1.byte_index < b
    · rw [List.cons_append, mbOvercount_cons_lt _ _ _ h1, mbOvercount_cons_lt _ _ _ h1,
        mbOvercount_append_ge mb m b h]
    · rw [List.cons_append, mbOvercount_cons_ge _ _ _ (by omega),
        mbOvercount_cons_ge _ _ _ (by omega)]

theorem mbOvercount_append_lt : ∀ (mb : List MultiByteCharInfo) (m : MultiByteCharInfo) (b : Nat),
    (∀ x ∈ mb, x.byte_index < b) → m.byte_index < b →
    TextLines.mbOvercount (mb ++ [m]) b =
      TextLines.mbOvercount mb b +
        (if b < m.byte_index + m.length then b - m.byte_index else m.length - 1)
  | [], m, b, _, hm => by
    rw [List.nil_append, mbOvercount_cons_lt m [] b hm]
    have : TextLines.mbOvercount ([] : List MultiByteCharInfo) b = 0 := rfl
    omega
  | m1 :: mb, m, b, h, hm => by
    have h1 : m1.byte_index < b := h m1 (List.mem_cons_self _ _)
    rw [List.cons_append, mbOvercount_cons_lt _ _ _ h1, mbOvercount_cons_lt _ _ _ h1,
      mbOvercount_append_lt mb m b (fun x hx => h x (List.mem_cons_of_mem _ hx)) hm]
    omega

theorem mbOvercount_all : ∀ (mb : List MultiByteCharInfo) (b : Nat),
    (∀ x ∈ mb, x.byte_index + x.length ≤ b ∧ 0 < x.length) →
    TextLines.mbOvercount mb b = sumLen1 mb
  | [], _, _ => rfl
  | m :: mb, b, h => by
    obtain ⟨h1, h2⟩ := h m (List.mem_cons_self _ _)
    rw [mbOvercount_cons_lt _ _ _ (by omega), if_neg (by omega),
      mbOvercount_all mb b (fun x hx => h x (List.mem_cons_of_mem _ hx))]
    simp [sumLen1]

theorem byteIndexAdd_all : ∀ (mb : List MultiByteCharInfo) (col : Nat),
    (∀ m ∈ mb, m.line_char_index < col) → TextLines.byteIndexAdd mb col = sumLen1 mb
  | [], _, _ => rfl
  | m :: mb, col, h => by
    unfold TextLines.byteIndexAdd
    rw [if_pos (h m (List.mem_cons_self _ _)),
      byteIndexAdd_all mb col (fun x hx => h x (List.mem_cons_of_mem _ hx))]
    simp [sumLen1]

theorem countLt_append (tb : List Nat) (x b : Nat) :
    countLt (tb ++ [x]) b = countLt tb b + (if x < b then 1 else 0) := by
  unfold countLt
  rw [List.countP_append, List.countP_cons]
  simp

theorem countLt_zero_of_ge (tb : List Nat) (b : Nat) (h : ∀ t ∈ tb, b ≤ t) :
    countLt tb b = 0 := by
  unfold countLt
  apply List.countP_eq_zero.mpr
  intro t ht
  simp only [decide_eq_true_eq, not_lt]
  exact h t ht

theorem takeWhileLt_length_sorted : ∀ (tb : List Nat) (b : Nat),
    List.Pairwise (fun t1 t2 => t1 < t2) tb →
    (tb.takeWhile (fun t => decide (t < b))).length = countLt tb b
  | [], _, _ => rfl
  | t :: tb, b, h => by
    obtain ⟨h1, h2⟩ := List.pairwise_cons.mp h
    rw [List.takeWhile_cons]
    unfold countLt
    rw [List.countP_cons]
    by_cases ht : t < b
    · have e : decide (t < b) = true := by
        simp only [decide_eq_true_eq]
        exact ht
      rw [e]
      simp only [if_true, List.length_cons]
      rw [takeWhileLt_length_sorted tb b h2]
      unfold countLt
      omega
    · have e : decide (t < b) = false := by
        simp only [decide_eq_false_iff_not]
        exact ht
      rw [e]
      simp only [Bool.false_eq_true, if_false, List.length_nil]
      have : tb.countP (fun x => decide (x < b)) = 0 := by
        apply List.countP_eq_zero.mpr
        intro x hx
        have := h1 x hx
        simp only [decide_eq_true_eq, not_lt]
        omega
      omega

/-! ### The construction loop produces `linesFrom` -/

theorem buildLoop_linesFrom : ∀ (cs : List Char) (b ci : Nat) (s : BuildState) (total : Nat),
    (0 < b ∨ headIsnBom cs) → s.line_char_index ≤ ci →
    (buildLoop cs b ci s).lines ++
      [⟨(buildLoop cs b ci s).last_line_start, total,
        (buildLoop cs b ci s).multi_byte_chars, (buildLoop cs b ci s).tab_chars⟩] =
    s.lines ++ linesFrom cs b s.last_line_start s.multi_byte_chars s.tab_chars
      s.was_last_slash_r (ci - s.line_char_index) total
  | [], b, ci, s, total, _, _ => by
    simp [buildLoop, linesFrom]
  | c :: rest, b, ci, s, total, hb, hci => by
    have hbom : ¬ (b = 0 ∧ c = BOM_CHAR) := by
      rcases hb with hb | hb
      · intro h
        omega
      · intro h
        exact hb h.2
    have hlb : (0 < b + charLen c ∨ headIsnBom rest) :=
      Or.inl (by have := charLen_pos c; omega)
    simp only [buildLoop, linesFrom]
    by_cases h1 : c = '\n'
    · subst h1
      rw [if_pos rfl]
      have hstep : buildStep b ci '\n' s =
          ⟨b + 1, [], [],
            s.lines ++ [⟨s.last_line_start,
              if s.was_last_slash_r then b - 1 else b,
              s.multi_byte_chars, s.tab_chars⟩], false, ci + 1⟩ := by
        unfold buildStep
        rw [if_neg hbom, if_pos rfl]
        rfl
      rw [hstep]
      have hIH := buildLoop_linesFrom rest (b + charLen '\n') (ci + 1)
        ⟨b + 1, [], [],
          s.lines ++ [⟨s.last_line_start,
            if s.was_last_slash_r then b - 1 else b,
            s.multi_byte_chars, s.tab_chars⟩], false, ci + 1⟩ total hlb (Nat.le_refl _)
      have hcl : charLen '\n' = 1 := by decide
      rw [hcl] at hIH
      rw [hcl, hIH]
      simp
    · rw [if_neg h1]
      by_cases h2 : c = '\t'
      · subst h2
        rw [if_pos rfl]
        have hstep : buildStep b ci '\t' s =
            ⟨s.last_line_start, s.multi_byte_chars, s.tab_chars ++ [b], s.lines,
              false, s.line_char_index⟩ := by
          unfold buildStep
          rw [if_neg hbom, if_neg h1, if_pos rfl]
          rfl
        rw [hstep]
        have hIH := buildLoop_linesFrom rest (b + charLen '\t') (ci + 1)
          ⟨s.last_line_start, s.multi_byte_chars, s.tab_chars ++ [b], s.lines,
            false, s.line_char_index⟩ total hlb (by show s.line_char_index ≤ ci + 1; omega)
        have hcl : charLen '\t' = 1 := by decide
        rw [hcl] at hIH
        rw [hcl]
        rw [Nat.succ_sub hci] at hIH
        exact hIH
      · rw [if_neg h2]
        by_cases h3 : 1 < charLen c
        · rw [if_pos h3]
          have hstep : buildStep b ci c s =
              ⟨s.last_line_start,
                s.multi_byte_chars ++ [⟨b, ci - s.line_char_index, charLen c⟩],
                s.tab_chars, s.lines, decide (c = '\r'), s.line_char_index⟩ := by
            unfold buildStep
            rw [if_neg hbom, if_neg h1, if_neg h2, if_pos h3]
          rw [hstep]
          have hIH := buildLoop_linesFrom rest (b + charLen c) (ci + 1)
            ⟨s.last_line_start,
              s.multi_byte_chars ++ [⟨b, ci - s.line_char_index, charLen c⟩],
              s.tab_chars, s.lines, decide (c = '\r'), s.line_char_index⟩ total hlb
            (by show s.line_char_index ≤ ci + 1; omega)
          rw [Nat.succ_sub hci] at hIH
          exact hIH
        · rw [if_neg h3]
          have hstep : buildStep b ci c s =
              ⟨s.last_line_start, s.multi_byte_chars, s.tab_chars, s.lines,
                decide (c = '\r'), s.line_char_index⟩ := by
            unfold buildStep
            rw [if_neg hbom, if_neg h1, if_neg h2, if_neg h3]
          rw [hstep]
          have hIH := buildLoop_linesFrom rest (b + charLen c) (ci + 1)
            ⟨s.last_line_start, s.multi_byte_chars, s.tab_chars, s.lines,
              decide (c = '\r'), s.line_char_index⟩ total hlb
            (by show s.line_char_index ≤ ci + 1; omega)
          rw [Nat.succ_sub hci] at hIH
          exact hIH

theorem lines_eq_nobom (text : List Char) (w : Nat) (h : headIsnBom text) :
    (TextLines.with_indent_width text w).lines =
      linesFrom text 0 0 [] [] false 0 (byteLen text) := by
  have hmaster := buildLoop_linesFrom text 0 0 ⟨0, [], [], [], false, 0⟩ (byteLen text)
    (Or.inr h) (Nat.le_refl 0)
  cases text with
  | nil => rfl
  | cons c rest =>
    have hc : decide (c = BOM_CHAR) = false := by
      simp only [decide_eq_false_iff_not]
      exact h
    unfold TextLines.with_indent_width
    simp only [hc, Bool.false_eq_true, if_false]
    simpa using hmaster

theorem lines_eq_bom (rest : List Char) (w : Nat) :
    (TextLines.with_indent_width (BOM_CHAR :: rest) w).lines =
      linesFrom rest 3 3 [] [] false 1 (3 + byteLen rest) := by
  have h3 : charLen BOM_CHAR = 3 := by decide
  have hmaster := buildLoop_linesFrom rest 3 1 ⟨3, [], [], [], false, 0⟩ (3 + byteLen rest)
    (Or.inl (by omega)) (by show (0 : Nat) ≤ 1; omega)
  unfold TextLines.with_indent_width
  simp only [decide_eq_true_eq]
  have hif : (decide (BOM_CHAR = BOM_CHAR)) = true := by decide
  simp only [hif, if_true]
  have hunf : buildLoop (BOM_CHAR :: rest) 0 0 ⟨charLen BOM_CHAR, [], [], [], false, 0⟩ =
      buildLoop rest 3 1 ⟨3, [], [], [], false, 0⟩ := by
    rw [buildLoop.eq_def]
    simp only [h3]
    have hstep : buildStep 0 0 BOM_CHAR ⟨3, [], [], [], false, 0⟩ =
        ⟨3, [], [], [], false, 0⟩ := by
      unfold buildStep
      rw [if_pos ⟨rfl, rfl⟩]
    rw [hstep]
  rw [h3] at hunf ⊢
  rw [hunf]
  have hbl : byteLen (BOM_CHAR :: rest) = 3 + byteLen rest := by
    simp [byteLen, h3]
  rw [hbl]
  simpa using hmaster

/-! ### Structure of the produced line table -/

theorem linesFrom_struct : ∀ (cs : List Char) (b st : Nat) (mb : List MultiByteCharInfo)
    (tb : List Nat) (cr : Bool) (k total : Nat) (pre text : List Char),
    text = pre ++ cs → byteLen pre = b → st ≤ b →
    (cr = true → 1 ≤ b ∧ st + 1 ≤ b ∧ charAtByte text (b - 1) = some '\r') →
    b + byteLen cs = total →
    linesFrom cs b st mb tb cr k total ≠ [] ∧
    (∀ l ls, linesFrom cs b st mb tb cr k total = l :: ls → l.start_index = st) ∧
    (∀ l, (linesFrom cs b st mb tb cr k total).getLast? = some l → l.end_index = total) ∧
    List.Chain' (LineConn text) (linesFrom cs b st mb tb cr k total) ∧
    (∀ l ∈ linesFrom cs b st mb tb cr k total, l.start_index ≤ l.end_index)
  | [], b, st, mb, tb, cr, k, total, pre, text, htext, hpre, hst, hcr, htotal => by
    simp only [linesFrom, byteLen] at *
    refine ⟨by simp, ?_, ?_, ?_, ?_⟩
    · intro l ls h
      cases h
      rfl
    · intro l h
      simp only [List.getLast?_singleton, Option.some.injEq] at h
      cases h
      rfl
    · exact List.chain'_singleton _
    · intro l hl
      simp only [List.mem_singleton] at hl
      cases hl
      show st ≤ total
      omega
  | c :: rest, b, st, mb, tb, cr, k, total, pre, text, htext, hpre, hst, hcr, htotal => by
    have hc1 := charLen_pos c
    have htotal2 : b + charLen c + byteLen rest = total := by
      simp only [byteLen] at htotal
      omega
    simp only [linesFrom]
    by_cases h1 : c = '\n'
    · subst h1
      rw [if_pos rfl]
      have hclnl : charLen '\n' = 1 := by decide
      have hIH := linesFrom_struct rest (b + 1) (b + 1) [] [] false 0 total
        (pre ++ ['\n']) text
        (by rw [htext, List.append_assoc]; rfl)
        (by rw [byteLen_append, hpre]; simp [byteLen, hclnl])
        (Nat.le_refl _)
        (by intro h; cases h)
        (by omega)
      obtain ⟨hne, hhead, hlast, hchain, hmem⟩ := hIH
      obtain ⟨l2, ls2, hLF2⟩ := List.exists_cons_of_ne_nil hne
      have hl2start : l2.start_index = b + 1 := hhead l2 ls2 hLF2
      have hcharnl : charAtByte text b = some '\n' := by
        rw [htext, ← hpre]
        exact charAtByte_at pre '\n' rest
      refine ⟨by simp, ?_, ?_, ?_, ?_⟩
      · intro l ls h
        cases h
        rfl
      · intro l h
        rw [hLF2, List.getLast?_cons_cons] at h
        exact hlast l (by rw [hLF2]; exact h)
      · rw [hLF2, List.chain'_cons]
        refine ⟨?_, by rw [← hLF2]; exact hchain⟩
        by_cases hcrT : cr = true
        · obtain ⟨hb1, hstb, hrr⟩ := hcr hcrT
          rw [hcrT]
          simp only [if_true]
          refine Or.inr ⟨hrr, ?_, ?_⟩
          · have : b - 1 + 1 = b := by omega
            rw [this]
            exact hcharnl
          · show l2.start_index = b - 1 + 2
            omega
        · have hcrF : cr = false := by
            cases cr
            · rfl
            · exact absurd rfl hcrT
          rw [hcrF]
          simp only [Bool.false_eq_true, if_false]
          refine Or.inl ⟨hcharnl, ?_⟩
          show l2.start_index = b + 1
          omega
      · intro l hl
        rcases List.mem_cons.mp hl with rfl | hl2
        · show st ≤ if cr = true then b - 1 else b
          by_cases hcrT : cr = true
          · obtain ⟨hb1, hstb, _⟩ := hcr hcrT
            rw [hcrT]
            simp only [if_true]
            omega
          · have hcrF : cr = false := by
              cases cr
              · rfl
              · exact absurd rfl hcrT
            rw [hcrF]
            simpa using hst
        · exact hmem l hl2
    · rw [if_neg h1]
      by_cases h2 : c = '\t'
      · subst h2
        rw [if_pos rfl]
        exact linesFrom_struct rest (b + 1) st mb (tb ++ [b]) false (k + 1) total
          (pre ++ ['\t']) text
          (by rw [htext, List.append_assoc]; rfl)
          (by rw [byteLen_append, hpre]; simp [byteLen]; decide)
          (by omega)
          (by intro h; cases h)
          (by have : charLen '\t' = 1 := by decide
              omega)
      · rw [if_neg h2]
        have hcrnext : (decide (c = '\r')) = true →
            1 ≤ b + charLen c ∧ st + 1 ≤ b + charLen c ∧
              charAtByte text (b + charLen c - 1) = some '\r' := by
          intro hdec
          have hceq : c = '\r' := of_decide_eq_true hdec
          subst hceq
          have : charLen '\r' = 1 := by decide
          rw [this]
          refine ⟨by omega, by omega, ?_⟩
          have : b + 1 - 1 = b := by omega
          rw [this, htext, ← hpre]
          exact charAtByte_at pre '\r' rest
        by_cases h3 : 1 < charLen c
        · rw [if_pos h3]
          exact linesFrom_struct rest (b + charLen c) st (mb ++ [⟨b, k, charLen c⟩]) tb
            (decide (c = '\r')) (k + 1) total (pre ++ [c]) text
            (by rw [htext, List.append_assoc]; rfl)
            (by rw [byteLen_append, hpre]; simp [byteLen])
            (by omega) hcrnext (by omega)
        · rw [if_neg h3]
          exact linesFrom_struct rest (b + charLen c) st mb tb
            (decide (c = '\r')) (k + 1) total (pre ++ [c]) text
            (by rw [htext, List.append_assoc]; rfl)
            (by rw [byteLen_append, hpre]; simp [byteLen])
            (by omega) hcrnext (by omega)

theorem chain_pairwise_start : ∀ (text : List Char) (L : List TextLine),
    List.Chain' (LineConn text) L → (∀ l ∈ L, l.start_index ≤ l.end_index) →
    List.Pairwise (fun x y => x.start_index < y.start_index) L
  | _, [], _, _ => List.Pairwise.nil
  | _, [l], _, _ => List.pairwise_singleton _ _
  | text, l :: l2 :: ls, hchain, hmem => by
    obtain ⟨hconn, hchain2⟩ := List.chain'_cons.mp hchain
    have hIH := chain_pairwise_start text (l2 :: ls) hchain2
      (fun x hx => hmem x (List.mem_cons_of_mem _ hx))
    have hlt : l.start_index < l2.start_index := by
      have hle := hmem l (List.mem_cons_self _ _)
      rcases hconn with ⟨_, h⟩ | ⟨_, _, h⟩ <;> omega
    refine List.pairwise_cons.mpr ⟨?_, hIH⟩
    intro x hx
    rcases List.mem_cons.mp hx with rfl | hx2
    · exact hlt
    · exact Nat.lt_trans hlt ((List.pairwise_cons.mp hIH).1 x hx2)

theorem countP_start_spec : ∀ (L : List TextLine) (b : Nat),
    List.Pairwise (fun x y => x.start_index < y.start_index) L →
    ((∀ x ∈ L, b < x.start_index) ∧
      L.countP (fun l => decide (l.start_index ≤ b)) = 0) ∨
    (∃ i, ∃ h : i < L.length, (L.get ⟨i, h⟩).start_index ≤ b ∧
      (∀ h2 : i + 1 < L.length, b < (L.get ⟨i + 1, h2⟩).start_index) ∧
      L.countP (fun l => decide (l.start_index ≤ b)) = i + 1)
  | [], b, _ => Or.inl ⟨fun x hx => absurd hx (List.not_mem_nil _), rfl⟩
  | l :: L, b, hp => by
    obtain ⟨h1, h2⟩ := List.pairwise_cons.mp hp
    by_cases hb : l.start_index ≤ b
    · refine Or.inr ?_
      rcases countP_start_spec L b h2 with ⟨hall, hcnt⟩ | ⟨i, hi, hget, hnext, hcnt⟩
      · refine ⟨0, by simp, hb, ?_, ?_⟩
        · intro hlen
          have : (l :: L).get ⟨1, hlen⟩ = L.get ⟨0, by simpa using hlen⟩ := rfl
          rw [this]
          exact hall _ (List.get_mem _ _ _)
        · rw [List.countP_cons]
          simp only [hcnt, decide_eq_true_eq]
          rw [if_pos hb]
      · refine ⟨i + 1, by simpa using Nat.succ_lt_succ hi, ?_, ?_, ?_⟩
        · have : (l :: L).get ⟨i + 1, by simpa using Nat.succ_lt_succ hi⟩ =
              L.get ⟨i, hi⟩ := rfl
          rw [this]
          exact hget
        · intro hlen
          have hlen2 : i + 1 < L.length := by simpa using hlen
          have : (l :: L).get ⟨i + 2, hlen⟩ = L.get ⟨i + 1, hlen2⟩ := rfl
          rw [this]
          exact hnext hlen2
        · rw [List.countP_cons]
          simp only [hcnt, decide_eq_true_eq]
          rw [if_pos hb]
    · refine Or.inl ⟨?_, ?_⟩
      · intro x hx
        rcases List.mem_cons.mp hx with rfl | hx2
        · omega
        · have := h1 x hx2
          omega
      · rw [List.countP_cons]
        have hz : L.countP (fun l => decide (l.start_index ≤ b)) = 0 := by
          apply List.countP_eq_zero.mpr
          intro x hx
          have := h1 x hx
          simp only [decide_eq_true_eq]
          omega
        simp only [hz, decide_eq_true_eq]
        rw [if_neg hb]

theorem countP_start_eq : ∀ (L : List TextLine) (b i : Nat),
    List.Pairwise (fun x y => x.start_index < y.start_index) L →
    ∀ hi : i < L.length, (L.get ⟨i, hi⟩).start_index ≤ b →
    (∀ h2 : i + 1 < L.length, b < (L.get ⟨i + 1, h2⟩).start_index) →
    L.countP (fun l => decide (l.start_index ≤ b)) = i + 1
  | [], b, i, _, hi, _, _ => absurd hi (by simp)
  | l :: L, b, 0, hp, hi, hle, hnext => by
    obtain ⟨h1, h2⟩ := List.pairwise_cons.mp hp
    rw [List.countP_cons]
    have hz : L.countP (fun l => decide (l.start_index ≤ b)) = 0 := by
      apply List.countP_eq_zero.mpr
      intro x hx
      simp only [decide_eq_true_eq]
      cases L with
      | nil => cases hx
      | cons l2 ls =>
        have hb2 : b < l2.start_index := hnext (by simp)
        rcases List.mem_cons.mp hx with rfl | hx2
        · omega
        · have := (List.pairwise_cons.mp h2).1 x hx2
          omega
    have hle0 : l.start_index ≤ b := hle
    simp only [hz, decide_eq_true_eq]
    rw [if_pos hle0]
  | l :: L, b, i + 1, hp, hi, hle, hnext => by
    obtain ⟨h1, h2⟩ := List.pairwise_cons.mp hp
    have hi2 : i < L.length := by simpa using hi
    have hle2 : (L.get ⟨i, hi2⟩).start_index ≤ b := hle
    have hnext2 : ∀ h2 : i + 1 < L.length, b < (L.get ⟨i + 1, h2⟩).start_index := by
      intro h3
      exact hnext (by simpa using Nat.succ_lt_succ h3)
    rw [List.countP_cons, countP_start_eq L b i h2 hi2 hle2 hnext2]
    have hlb : l.start_index ≤ b := by
      have := h1 _ (List.get_mem L i hi2)
      omega
    simp only [decide_eq_true_eq]
    rw [if_pos hlb]

theorem linesFrom_ne_nil : ∀ (cs : List Char) (b st : Nat) (mb : List MultiByteCharInfo)
    (tb : List Nat) (cr : Bool) (k total : Nat), linesFrom cs b st mb tb cr k total ≠ []
  | [], _, _, _, _, _, _, _ => by simp [linesFrom]
  | c :: rest, b, st, mb, tb, cr, k, total => by
    simp only [linesFrom]
    by_cases h1 : c = '\n'
    · rw [if_pos h1]
      simp
    · rw [if_neg h1]
      by_cases h2 : c = '\t'
      · rw [if_pos h2]
        exact linesFrom_ne_nil rest (b + 1) st mb (tb ++ [b]) false (k + 1) total
      · rw [if_neg h2]
        by_cases h3 : 1 < charLen c
        · rw [if_pos h3]
          exact linesFrom_ne_nil rest (b + charLen c) st (mb ++ [⟨b, k, charLen c⟩]) tb
            (decide (c = '\r')) (k + 1) total
        · rw [if_neg h3]
          exact linesFrom_ne_nil rest (b + charLen c) st mb tb
            (decide (c = '\r')) (k + 1) total

theorem linesFrom_head_start : ∀ (cs : List Char) (b st : Nat) (mb : List MultiByteCharInfo)
    (tb : List Nat) (cr : Bool) (k total : Nat) (l : TextLine) (ls : List TextLine),
    linesFrom cs b st mb tb cr k total = l :: ls → l.start_index = st
  | [], b, st, mb, tb, cr, k, total, l, ls, h => by
    simp only [linesFrom] at h
    cases h
    rfl
  | c :: rest, b, st, mb, tb, cr, k, total, l, ls, h => by
    simp only [linesFrom] at h
    by_cases h1 : c = '\n'
    · rw [if_pos h1] at h
      cases h
      rfl
    · rw [if_neg h1] at h
      by_cases h2 : c = '\t'
      · rw [if_pos h2] at h
        exact linesFrom_head_start rest (b + 1) st mb (tb ++ [b]) false (k + 1) total l ls h
      · rw [if_neg h2] at h
        by_cases h3 : 1 < charLen c
        · rw [if_pos h3] at h
          exact linesFrom_head_start rest (b + charLen c) st (mb ++ [⟨b, k, charLen c⟩]) tb
            (decide (c = '\r')) (k + 1) total l ls h
        · rw [if_neg h3] at h
          exact linesFrom_head_start rest (b + charLen c) st mb tb
            (decide (c = '\r')) (k + 1) total l ls h

theorem mbOvercount_stable (mb : List MultiByteCharInfo) (b bq : Nat)
    (h : ∀ x ∈ mb, x.byte_index + x.length ≤ b ∧ 0 < x.length) (hle : b ≤ bq) :
    TextLines.mbOvercount mb bq = TextLines.mbOvercount mb b := by
  rw [mbOvercount_all mb bq (fun x hx => ⟨Nat.le_trans (h x hx).1 hle, (h x hx).2⟩),
    mbOvercount_all mb b h]

theorem countLt_stable (tb : List Nat) (b bq : Nat)
    (h : ∀ t ∈ tb, t < b) (hle : b ≤ bq) : countLt tb bq = countLt tb b := by
  unfold countLt
  apply countP_congr_mem
  intro t ht
  have := h t ht
  have e1 : decide (t < bq) = true := by
    simp only [decide_eq_true_eq]
    omega
  have e2 : decide (t < b) = true := by
    simp only [decide_eq_true_eq]
    omega
  rw [e1, e2]

theorem positions_gap (pre : List Char) (c : Char) (cs : List Char) (q : Nat)
    (hq : q ∈ charPositions (pre ++ c :: cs) 0) (hlt : byteLen pre < q) :
    byteLen pre + charLen c ≤ q := by
  rw [charPositions_append] at hq
  rcases List.mem_append.mp hq with hx | hx
  · have := charPositions_mem_ub pre 0 q hx
    omega
  · simp only [charPositions, List.mem_cons] at hx
    rcases hx with rfl | hx
    · omega
    · have := charPositions_mem_lb _ _ q hx
      omega

theorem lineOK_intro (text : List Char) (total k0 st en : Nat)
    (mb : List MultiByteCharInfo) (tb : List Nat) (cover : Nat)
    (h1 : st ≤ en) (h2 : en ≤ cover) (h3 : cover ≤ en + 1) (h4 : cover ≤ total)
    (h5 : CharBoundary text st) (h6 : CharBoundary text en)
    (h7 : en + 1 = cover → charAtByte text en = some '\r' ∧ charAtByte text cover = some '\n')
    (h8 : List.Pairwise (fun t1 t2 => t1 < t2) tb)
    (h9 : ∀ t ∈ tb, st ≤ t ∧ t < cover)
    (h10 : List.Pairwise (fun m1 m2 => m1.byte_index + m1.length ≤ m2.byte_index) mb)
    (h11 : ∀ m ∈ mb, st ≤ m.byte_index ∧ m.byte_index + m.length ≤ cover ∧ 2 ≤ m.length ∧
      m.byte_index ∈ charPositions text 0 ∧
      (∀ q ∈ charPositions text 0, m.byte_index < q → m.byte_index + m.length ≤ q) ∧
      m.byte_index + m.length ≤ byteLen text ∧
      m.line_char_index = k0 + charsIn text st m.byte_index)
    (h12 : ∀ bq, st ≤ bq → bq ≤ cover →
      countLt tb bq + TextLines.mbOvercount mb bq + st ≤ bq)
    (h13 : ∀ bq, st ≤ bq → bq ≤ cover → CharBoundary text bq →
      charsIn text st bq + TextLines.mbOvercount mb bq + st = bq) :
    LineOK text total k0 ⟨st, en, mb, tb⟩ cover :=
  ⟨h1, h2, h3, h4, h5, h6, h7, h8, h9, h10, h11, h12, h13⟩

theorem linesFrom_linesOK : ∀ (cs : List Char) (b st : Nat) (mb : List MultiByteCharInfo)
    (tb : List Nat) (cr : Bool) (k k0 total : Nat) (pre text : List Char),
    text = pre ++ cs → byteLen pre = b → st ≤ b →
    CharBoundary text st →
    k = k0 + charsIn text st b →
    List.Pairwise (fun t1 t2 => t1 < t2) tb →
    (∀ t ∈ tb, st ≤ t ∧ t < b) →
    List.Pairwise (fun m1 m2 => m1.byte_index + m1.length ≤ m2.byte_index) mb →
    (∀ m ∈ mb, st ≤ m.byte_index ∧ m.byte_index + m.length ≤ b ∧ 2 ≤ m.length ∧
      m.byte_index ∈ charPositions text 0 ∧
      (∀ q ∈ charPositions text 0, m.byte_index < q → m.byte_index + m.length ≤ q) ∧
      m.byte_index + m.length ≤ byteLen text ∧
      m.line_char_index = k0 + charsIn text st m.byte_index) →
    (∀ bq, st ≤ bq → bq ≤ b →
      countLt tb bq + TextLines.mbOvercount mb bq + st ≤ bq) →
    (∀ bq, st ≤ bq → bq ≤ b → CharBoundary text bq →
      charsIn text st bq + TextLines.mbOvercount mb bq + st = bq) →
    (cr = true → 1 ≤ b ∧ st + 1 ≤ b ∧ charAtByte text (b - 1) = some '\r' ∧
      (b - 1) ∈ charPositions text 0) →
    b + byteLen cs = total →
    LinesOK text total k0 (linesFrom cs b st mb tb cr k total)
  | [], b, st, mb, tb, cr, k, k0, total, pre, text, htext, hpre, hst, hstb, hk, htbs, htbm,
      hmbs, hmbm, hcnt, hchars, hcr, htotal => by
    simp only [linesFrom]
    have hbt : byteLen text = b := by
      rw [htext, byteLen_append]
      simp [byteLen, hpre]
    have htb : total = b := by
      simp only [byteLen] at htotal
      omega
    show LinesOK text total k0 [⟨st, total, mb, tb⟩]
    simp only [LinesOK]
    refine lineOK_intro text total k0 st total mb tb total (by omega) (Nat.le_refl _)
      (Nat.le_succ _) (Nat.le_refl _) hstb (Or.inr (by omega)) (by omega)
      htbs ?_ hmbs ?_ ?_ ?_
    · intro t ht
      have := htbm t ht
      exact ⟨this.1, by omega⟩
    · intro m hm
      obtain ⟨a1, a2, a3, a4, a5, a6, a7⟩ := hmbm m hm
      exact ⟨a1, by omega, a3, a4, a5, a6, a7⟩
    · intro bq hb1 hb2
      exact hcnt bq hb1 (by omega)
    · intro bq hb1 hb2 hb3
      exact hchars bq hb1 (by omega) hb3
  | c :: rest, b, st, mb, tb, cr, k, k0, total, pre, text, htext, hpre, hst, hstb, hk,
      htbs, htbm, hmbs, hmbm, hcnt, hchars, hcr, htotal => by
    have hc1 := charLen_pos c
    have htotal2 : b + charLen c + byteLen rest = total := by
      simp only [byteLen] at htotal
      omega
    have hstp : st ≤ byteLen pre := by omega
    have hsucc : charsIn text st (b + charLen c) = charsIn text st b + 1 := by
      have h := charsIn_succ pre c rest st hstp
      rw [hpre] at h
      rw [htext]
      exact h
    have hbpos : b ∈ charPositions text 0 := by
      rw [htext, ← hpre]
      exact charPositions_mem_at pre c rest
    have hbbound : CharBoundary text b := Or.inl hbpos
    have hgap : ∀ q ∈ charPositions text 0, b < q → b + charLen c ≤ q := by
      intro q hq hlt
      rw [htext] at hq
      have := positions_gap pre c rest q hq (by omega)
      omega
    have hblen : b + charLen c ≤ byteLen text := by
      rw [htext, byteLen_append]
      simp only [byteLen]
      omega
    have hmb_lt : ∀ x ∈ mb, x.byte_index + x.length ≤ b ∧ 0 < x.length := by
      intro x hx
      obtain ⟨_, a2, a3, _⟩ := hmbm x hx
      exact ⟨a2, by omega⟩
    have htb_lt : ∀ t ∈ tb, t < b := fun t ht => (htbm t ht).2
    simp only [linesFrom]
    by_cases h1 : c = '\n'
    · subst h1
      rw [if_pos rfl]
      have hclnl : charLen '\n' = 1 := by decide
      have htext2 : text = (pre ++ ['\n']) ++ rest := by
        rw [htext, List.append_assoc]
        rfl
      have hpre2 : byteLen (pre ++ ['\n']) = b + 1 := by
        rw [byteLen_append, hpre]
        simp [byteLen, hclnl]
      have htail := linesFrom_linesOK rest (b + 1) (b + 1) [] [] false 0 0 total
        (pre ++ ['\n']) text htext2 hpre2 (Nat.le_refl _)
        (by have h := charBoundary_at (pre ++ ['\n']) rest
            rw [← htext2, hpre2] at h
            exact h)
        (by rw [charsIn_zero_of_le text (b + 1) (b + 1) (Nat.le_refl _)])
        List.Pairwise.nil
        (by intro t ht; cases ht)
        List.Pairwise.nil
        (by intro m hm; cases hm)
        (by intro bq hb1 hb2
            have hbq : bq = b + 1 := by omega
            subst hbq
            have e1 : countLt [] (b + 1) = 0 := rfl
            have e2 : TextLines.mbOvercount [] (b + 1) = 0 := rfl
            omega)
        (by intro bq hb1 hb2 _
            have hbq : bq = b + 1 := by omega
            subst hbq
            have e2 : TextLines.mbOvercount [] (b + 1) = 0 := rfl
            rw [charsIn_zero_of_le text (b + 1) (b + 1) (Nat.le_refl _), e2]
            omega)
        (by intro h; cases h)
        (by rw [hclnl] at htotal2; omega)
      obtain ⟨l2, ls2, hLF2⟩ :=
        List.exists_cons_of_ne_nil (linesFrom_ne_nil rest (b + 1) (b + 1) [] [] false 0 total)
      have hl2 : l2.start_index = b + 1 :=
        linesFrom_head_start rest (b + 1) (b + 1) [] [] false 0 total l2 ls2 hLF2
      rw [hLF2]
      have hnl : charAtByte text b = some '\n' := by
        rw [htext, ← hpre]
        exact charAtByte_at pre '\n' rest
      have hcov : l2.start_index - 1 = b := by omega
      simp only [LinesOK]
      constructor
      · rw [hcov]
        by_cases hcrT : cr = true
        · obtain ⟨hb1, hstb1, hrr, hrpos⟩ := hcr hcrT
          simp only [hcrT, if_true]
          exact lineOK_intro text total k0 st (b - 1) mb tb b (by omega) (by omega)
            (by omega) (by omega) hstb (Or.inl hrpos)
            (by intro _
                refine ⟨hrr, ?_⟩
                exact hnl)
            htbs htbm hmbs hmbm hcnt hchars
        · have hcrF : cr = false := by
            cases cr
            · rfl
            · exact absurd rfl hcrT
          simp only [hcrF, Bool.false_eq_true, if_false]
          exact lineOK_intro text total k0 st b mb tb b hst (Nat.le_refl _)
            (Nat.le_succ _) (by omega) hstb hbbound
            (by intro habs; omega)
            htbs htbm hmbs hmbm hcnt hchars
      · rw [← hLF2]
        exact htail
    · rw [if_neg h1]
      by_cases h2 : c = '\t'
      · subst h2
        rw [if_pos rfl]
        have hclt : charLen '\t' = 1 := by decide
        have hsucc1 : charsIn text st (b + 1) = charsIn text st b + 1 := by
          rw [← hclt]
          exact hsucc
        refine linesFrom_linesOK rest (b + 1) st mb (tb ++ [b]) false (k + 1) k0 total
          (pre ++ ['\t']) text
          (by rw [htext, List.append_assoc]; rfl)
          (by rw [byteLen_append, hpre]; simp [byteLen, hclt])
          (by omega) hstb
          (by rw [hsucc1]; omega)
          ?_ ?_ hmbs ?_ ?_ ?_
          (by intro h; cases h)
          (by rw [hclt] at htotal2; omega)
        · apply List.pairwise_append.mpr
          refine ⟨htbs, List.pairwise_singleton _ _, ?_⟩
          intro t ht y hy
          simp only [List.mem_singleton] at hy
          subst hy
          exact htb_lt t ht
        · intro t ht
          rcases List.mem_append.mp ht with ht2 | ht2
          · have := htbm t ht2
            exact ⟨this.1, by omega⟩
          · simp only [List.mem_singleton] at ht2
            subst ht2
            exact ⟨hst, by omega⟩
        · intro m hm
          obtain ⟨a1, a2, a3, a4, a5, a6, a7⟩ := hmbm m hm
          exact ⟨a1, by omega, a3, a4, a5, a6, a7⟩
        · intro bq hb1 hb2
          rw [countLt_append]
          by_cases hbq : bq ≤ b
          · rw [if_neg (by omega)]
            have := hcnt bq hb1 hbq
            omega
          · have hbq2 : bq = b + 1 := by omega
            subst hbq2
            rw [if_pos (by omega)]
            rw [countLt_stable tb b (b + 1) htb_lt (by omega),
              mbOvercount_stable mb b (b + 1) hmb_lt (by omega)]
            have := hcnt b hst (Nat.le_refl _)
            omega
        · intro bq hb1 hb2 hbound
          by_cases hbq : bq ≤ b
          · exact hchars bq hb1 hbq hbound
          · have hbq2 : bq = b + 1 := by omega
            subst hbq2
            rw [hsucc1, mbOvercount_stable mb b (b + 1) hmb_lt (by omega)]
            have := hchars b hst (Nat.le_refl _) hbbound
            omega
      · rw [if_neg h2]
        by_cases h3 : 1 < charLen c
        · rw [if_pos h3]
          refine linesFrom_linesOK rest (b + charLen c) st (mb ++ [⟨b, k, charLen c⟩]) tb
            (decide (c = '\r')) (k + 1) k0 total (pre ++ [c]) text
            (by rw [htext, List.append_assoc]; rfl)
            (by rw [byteLen_append, hpre]; simp [byteLen])
            (by omega) hstb
            (by rw [hsucc]; omega)
            htbs
            (by intro t ht
                have := htbm t ht
                exact ⟨this.1, by omega⟩)
            ?_ ?_ ?_ ?_
            (by intro hdec
                exfalso
                have hceq : c = '\r' := of_decide_eq_true hdec
                subst hceq
                have : charLen '\r' = 1 := by decide
                omega)
            (by omega)
          · apply List.pairwise_append.mpr
            refine ⟨hmbs, List.pairwise_singleton _ _, ?_⟩
            intro x hx y hy
            simp only [List.mem_singleton] at hy
            subst hy
            show x.byte_index + x.length ≤ b
            exact (hmb_lt x hx).1
          · intro m hm
            rcases List.mem_append.mp hm with hm2 | hm2
            · obtain ⟨a1, a2, a3, a4, a5, a6, a7⟩ := hmbm m hm2
              exact ⟨a1, by omega, a3, a4, a5, a6, a7⟩
            · simp only [List.mem_singleton] at hm2
              subst hm2
              refine ⟨hst, Nat.le_refl _, h3, hbpos, hgap, hblen, ?_⟩
              show k = k0 + charsIn text st b
              exact hk
          · intro bq hb1 hb2
            by_cases hbq : bq ≤ b
            · rw [mbOvercount_append_ge mb ⟨b, k, charLen c⟩ bq hbq]
              exact hcnt bq hb1 hbq
            · have hlt2 : ∀ x ∈ mb, x.byte_index < bq := by
                intro x hx
                have := hmb_lt x hx
                omega
              rw [mbOvercount_append_lt mb ⟨b, k, charLen c⟩ bq hlt2 (by show b < bq; omega)]
              rw [countLt_stable tb b bq htb_lt (by omega),
                mbOvercount_stable mb b bq hmb_lt (by omega)]
              have := hcnt b hst (Nat.le_refl _)
              show countLt tb b + (TextLines.mbOvercount mb b +
                (if bq < b + charLen c then bq - b else charLen c - 1)) + st ≤ bq
              by_cases hin : bq < b + charLen c
              · rw [if_pos hin]
                omega
              · rw [if_neg hin]
                omega
          · intro bq hb1 hb2 hbound
            by_cases hbq : bq ≤ b
            · rw [mbOvercount_append_ge mb ⟨b, k, charLen c⟩ bq hbq]
              exact hchars bq hb1 hbq hbound
            · by_cases hin : bq < b + charLen c
              · exfalso
                have := not_charBoundary_inside pre c rest bq (by omega) (by omega)
                rw [← htext] at this
                exact this hbound
              · have hbq2 : bq = b + charLen c := by omega
                subst hbq2
                have hlt2 : ∀ x ∈ mb, x.byte_index < b + charLen c := by
                  intro x hx
                  have := hmb_lt x hx
                  omega
                rw [mbOvercount_append_lt mb ⟨b, k, charLen c⟩ (b + charLen c) hlt2
                  (by show b < b + charLen c; omega)]
                rw [mbOvercount_stable mb b (b + charLen c) hmb_lt (by omega), hsucc]
                have := hchars b hst (Nat.le_refl _) hbbound
                show charsIn text st b + 1 + (TextLines.mbOvercount mb b +
                  (if b + charLen c < b + charLen c then b + charLen c - b
                   else charLen c - 1)) + st = b + charLen c
                rw [if_neg (by omega)]
                omega
        · rw [if_neg h3]
          have hlen : charLen c = 1 := by omega
          refine linesFrom_linesOK rest (b + charLen c) st mb tb
            (decide (c = '\r')) (k + 1) k0 total (pre ++ [c]) text
            (by rw [htext, List.append_assoc]; rfl)
            (by rw [byteLen_append, hpre]; simp [byteLen])
            (by omega) hstb
            (by rw [hsucc]; omega)
            htbs
            (by intro t ht
                have := htbm t ht
                exact ⟨this.1, by omega⟩)
            hmbs
            (by intro m hm
                obtain ⟨a1, a2, a3, a4, a5, a6, a7⟩ := hmbm m hm
                exact ⟨a1, by omega, a3, a4, a5, a6, a7⟩)
            ?_ ?_ ?_
            (by omega)
          · intro bq hb1 hb2
            by_cases hbq : bq ≤ b
            · exact hcnt bq hb1 hbq
            · rw [countLt_stable tb b bq htb_lt (by omega),
                mbOvercount_stable mb b bq hmb_lt (by omega)]
              have := hcnt b hst (Nat.le_refl _)
              omega
          · intro bq hb1 hb2 hbound
            by_cases hbq : bq ≤ b
            · exact hchars bq hb1 hbq hbound
            · have hbq2 : bq = b + charLen c := by omega
              subst hbq2
              rw [hsucc, mbOvercount_stable mb b (b + charLen c) hmb_lt (by omega)]
              have := hchars b hst (Nat.le_refl _) hbbound
              omega
          · intro hdec
            have hceq : c = '\r' := of_decide_eq_true hdec
            subst hceq
            have hr1 : charLen '\r' = 1 := by decide
            refine ⟨by omega, by omega, ?_, ?_⟩
            · have he : b + charLen '\r' - 1 = b := by omega
              rw [he, htext, ← hpre]
              exact charAtByte_at pre '\r' rest
            · have he : b + charLen '\r' - 1 = b := by omega
              rw [he]
              exact hbpos

/-! ### Top-level facts about constructed indexes -/

theorem with_indent_width_linesOK (text : List Char) (w : Nat) :
    ∃ k0, (k0 = 0 ∨ k0 = 1) ∧ (headIsnBom text → k0 = 0) ∧
      LinesOK text (byteLen text) k0 (TextLines.with_indent_width text w).lines := by
  by_cases hbom : headIsnBom text
  · refine ⟨0, Or.inl rfl, fun _ => rfl, ?_⟩
    rw [lines_eq_nobom text w hbom]
    refine linesFrom_linesOK text 0 0 [] [] false 0 0 (byteLen text) [] text rfl rfl
      (Nat.le_refl _) ?_ ?_ List.Pairwise.nil (by intro t ht; cases ht)
      List.Pairwise.nil (by intro m hm; cases hm) ?_ ?_ (by intro h; cases h) (by omega)
    · have h := charBoundary_at [] text
      simpa [byteLen] using h
    · rw [charsIn_zero_of_le text 0 0 (Nat.le_refl _)]
    · intro bq hb1 hb2
      have hbq : bq = 0 := by omega
      subst hbq
      have e1 : countLt [] 0 = 0 := rfl
      have e2 : TextLines.mbOvercount [] 0 = 0 := rfl
      omega
    · intro bq hb1 hb2 _
      have hbq : bq = 0 := by omega
      subst hbq
      have e2 : TextLines.mbOvercount [] 0 = 0 := rfl
      rw [charsIn_zero_of_le text 0 0 (Nat.le_refl _), e2]
  · have hbom2 : ∃ rest, text = BOM_CHAR :: rest := by
      cases text with
      | nil => exact absurd trivial hbom
      | cons c rest =>
        refine ⟨rest, ?_⟩
        have : ¬ c ≠ BOM_CHAR := hbom
        have : c = BOM_CHAR := by
          by_contra hc
          exact this hc
        rw [this]
    obtain ⟨rest, hrest⟩ := hbom2
    subst hrest
    refine ⟨1, Or.inr rfl, fun h => absurd h hbom, ?_⟩
    rw [lines_eq_bom rest w]
    have hpre3 : byteLen [BOM_CHAR] = 3 := by
      simp [byteLen]
      decide
    have hbl : byteLen (BOM_CHAR :: rest) = 3 + byteLen rest := by
      simp only [byteLen]
      have : charLen BOM_CHAR = 3 := by decide
      omega
    rw [hbl]
    refine linesFrom_linesOK rest 3 3 [] [] false 1 1 (3 + byteLen rest)
      [BOM_CHAR] (BOM_CHAR :: rest) rfl hpre3 (Nat.le_refl _) ?_ ?_
      List.Pairwise.nil (by intro t ht; cases ht)
      List.Pairwise.nil (by intro m hm; cases hm) ?_ ?_ (by intro h; cases h) (by omega)
    · have h := charBoundary_at [BOM_CHAR] rest
      rw [hpre3] at h
      exact h
    · rw [charsIn_zero_of_le (BOM_CHAR :: rest) 3 3 (Nat.le_refl _)]
    · intro bq hb1 hb2
      have hbq : bq = 3 := by omega
      subst hbq
      have e1 : countLt [] 3 = 0 := rfl
      have e2 : TextLines.mbOvercount [] 3 = 0 := rfl
      omega
    · intro bq hb1 hb2 _
      have hbq : bq = 3 := by omega
      subst hbq
      have e2 : TextLines.mbOvercount [] 3 = 0 := rfl
      rw [charsIn_zero_of_le (BOM_CHAR :: rest) 3 3 (Nat.le_refl _), e2]

theorem with_indent_width_struct (text : List Char) (w : Nat) :
    (TextLines.with_indent_width text w).lines ≠ [] ∧
    (∀ l, ((TextLines.with_indent_width text w).lines).getLast? = some l →
      l.end_index = byteLen text) ∧
    List.Chain' (LineConn text) (TextLines.with_indent_width text w).lines ∧
    (∀ l ∈ (TextLines.with_indent_width text w).lines, l.start_index ≤ l.end_index) := by
  by_cases hbom : headIsnBom text
  · rw [lines_eq_nobom text w hbom]
    have h := linesFrom_struct text 0 0 [] [] false 0 (byteLen text) [] text rfl rfl
      (Nat.le_refl _) (by intro h; cases h) (by omega)
    exact ⟨h.1, h.2.2.1, h.2.2.2.1, h.2.2.2.2⟩
  · have hbom2 : ∃ rest, text = BOM_CHAR :: rest := by
      cases text with
      | nil => exact absurd trivial hbom
      | cons c rest =>
        refine ⟨rest, ?_⟩
        have h1 : ¬ c ≠ BOM_CHAR := hbom
        have h2 : c = BOM_CHAR := by
          by_contra hc
          exact h1 hc
        rw [h2]
    obtain ⟨rest, hrest⟩ := hbom2
    subst hrest
    rw [lines_eq_bom rest w]
    have hpre3 : byteLen [BOM_CHAR] = 3 := by
      simp [byteLen]
      decide
    have hbl : byteLen (BOM_CHAR :: rest) = 3 + byteLen rest := by
      simp only [byteLen]
      have : charLen BOM_CHAR = 3 := by decide
      omega
    rw [hbl]
    have h := linesFrom_struct rest 3 3 [] [] false 1 (3 + byteLen rest)
      [BOM_CHAR] (BOM_CHAR :: rest) rfl hpre3 (Nat.le_refl _)
      (by intro h; cases h) (by omega)
    exact ⟨h.1, h.2.2.1, h.2.2.2.1, h.2.2.2.2⟩

theorem text_length_eq (text : List Char) (w : Nat) :
    TextLines.text_length (TextLines.with_indent_width text w) = byteLen text := by
  obtain ⟨hne, hlast, _, _⟩ := with_indent_width_struct text w
  unfold TextLines.text_length
  cases hget : (TextLines.with_indent_width text w).lines.getLast? with
  | none =>
    exfalso
    rw [List.getLast?_eq_none_iff] at hget
    exact hne hget
  | some l =>
    exact hlast l hget

theorem lines_count_pos (text : List Char) (w : Nat) :
    1 ≤ TextLines.lines_count (TextLines.with_indent_width text w) := by
  obtain ⟨hne, _, _, _⟩ := with_indent_width_struct text w
  unfold TextLines.lines_count
  cases hL : (TextLines.with_indent_width text w).lines with
  | nil => exact absurd hL hne
  | cons l ls => simp

theorem with_indent_width_pairwise (text : List Char) (w : Nat) :
    List.Pairwise (fun x y => x.start_index < y.start_index)
      (TextLines.with_indent_width text w).lines := by
  obtain ⟨_, _, hchain, hmem⟩ := with_indent_width_struct text w
  exact chain_pairwise_start text _ hchain hmem

theorem linesOK_get : ∀ (text : List Char) (total k0 : Nat) (L : List TextLine)
    (i : Nat) (h : i < L.length), LinesOK text total k0 L →
    ∃ k1 cover, (i = 0 → k1 = k0) ∧ (0 < i → k1 = 0) ∧
      (∀ h2 : i + 1 < L.length, cover = (L.get ⟨i + 1, h2⟩).start_index - 1) ∧
      (L.length = i + 1 → cover = total) ∧
      LineOK text total k1 (L.get ⟨i, h⟩) cover
  | text, total, k0, [], i, h, _ => absurd h (by simp)
  | text, total, k0, [l], 0, h, hOK => by
    refine ⟨k0, total, fun _ => rfl, by omega, ?_, fun _ => rfl, ?_⟩
    · intro h2
      simp at h2
    · simp only [LinesOK] at hOK
      exact hOK
  | text, total, k0, [l], i + 1, h, hOK => absurd h (by simp)
  | text, total, k0, l :: l2 :: ls, 0, h, hOK => by
    simp only [LinesOK] at hOK
    refine ⟨k0, l2.start_index - 1, fun _ => rfl, by omega, ?_, ?_, hOK.1⟩
    · intro h2
      rfl
    · intro hlen
      exfalso
      simp at hlen
  | text, total, k0, l :: l2 :: ls, i + 1, h, hOK => by
    simp only [LinesOK] at hOK
    have h2 : i < (l2 :: ls).length := by simpa using h
    obtain ⟨k1, cover, hk1a, hk1b, hcova, hcovb, hline⟩ :=
      linesOK_get text total 0 (l2 :: ls) i h2 hOK.2
    refine ⟨k1, cover, ?_, ?_, ?_, ?_, hline⟩
    · intro habs
      cases habs
    · intro _
      rcases Nat.eq_zero_or_pos i with rfl | hi
      · exact hk1a rfl
      · exact hk1b hi
    · intro h3
      have h4 : i + 1 + 1 < (l2 :: ls).length + 1 := by simpa using h3
      have h5 : i + 1 < (l2 :: ls).length := by omega
      have := hcova h5
      exact this
    · intro hlen
      apply hcovb
      simpa using hlen

theorem line_index_query (text : List Char) (w : Nat) (b : Nat)
    (hb : b ≤ byteLen text) :
    ∃ (i : Nat) (h : i < (TextLines.with_indent_width text w).lines.length) (k1 cover : Nat),
      TextLines.line_index (TextLines.with_indent_width text w) b = Except.ok i ∧
      (k1 = 0 ∨ k1 = 1) ∧ (headIsnBom text → k1 = 0) ∧
      LineOK text (byteLen text) k1
        ((TextLines.with_indent_width text w).lines.get ⟨i, h⟩) cover ∧
      b ≤ cover ∧
      (((TextLines.with_indent_width text w).lines.get ⟨i, h⟩).start_index ≤ b ∨
        (b < ((TextLines.with_indent_width text w).lines.get ⟨i, h⟩).start_index ∧ i = 0)) := by
  have hTL := text_length_eq text w
  have hassert : TextLines.assert_valid_byte_index (TextLines.with_indent_width text w) b =
      Except.ok () := by
    unfold TextLines.assert_valid_byte_index
    rw [if_neg (by omega)]
  have hP := with_indent_width_pairwise text w
  obtain ⟨k0, hk0or, hk0bom, hOK⟩ := with_indent_width_linesOK text w
  have hline_index : TextLines.line_index (TextLines.with_indent_width text w) b =
      Except.ok ((TextLines.with_indent_width text w).lines.countP
        (fun l => decide (l.start_index ≤ b)) - 1) := by
    unfold TextLines.line_index
    rw [hassert]
  rcases countP_start_spec _ b hP with ⟨hall, hcnt0⟩ | ⟨i, hi, hget, hnext, hcnt⟩
  · have hlen : 0 < (TextLines.with_indent_width text w).lines.length := by
      have := lines_count_pos text w
      unfold TextLines.lines_count at this
      omega
    obtain ⟨k1, cover, hk1a, hk1b, hcova, hcovb, hlineOK⟩ :=
      linesOK_get text (byteLen text) k0 _ 0 hlen hOK
    refine ⟨0, hlen, k1, cover, ?_, ?_, ?_, hlineOK, ?_, ?_⟩
    · rw [hline_index, hcnt0]
    · rcases hk0or with h | h
      · exact Or.inl (by rw [hk1a rfl, h])
      · exact Or.inr (by rw [hk1a rfl, h])
    · intro hh
      rw [hk1a rfl]
      exact hk0bom hh
    · have hstart := hall _ (List.get_mem _ 0 hlen)
      have h1 := hlineOK.start_le_end
      have h2 := hlineOK.end_le_cover
      omega
    · exact Or.inr ⟨hall _ (List.get_mem _ 0 hlen), rfl⟩
  · obtain ⟨k1, cover, hk1a, hk1b, hcova, hcovb, hlineOK⟩ :=
      linesOK_get text (byteLen text) k0 _ i hi hOK
    refine ⟨i, hi, k1, cover, ?_, ?_, ?_, hlineOK, ?_, Or.inl hget⟩
    · rw [hline_index, hcnt]
      simp
    · rcases Nat.eq_zero_or_pos i with rfl | hipos
      · rcases hk0or with h | h
        · exact Or.inl (by rw [hk1a rfl, h])
        · exact Or.inr (by rw [hk1a rfl, h])
      · exact Or.inl (hk1b hipos)
    · intro hh
      rcases Nat.eq_zero_or_pos i with rfl | hipos
      · rw [hk1a rfl]
        exact hk0bom hh
      · exact hk1b hipos
    · by_cases hlast : i + 1 < (TextLines.with_indent_width text w).lines.length
      · have h1 := hcova hlast
        have h2 := hnext hlast
        omega
      · have hlen2 : (TextLines.with_indent_width text w).lines.length = i + 1 := by omega
        rw [hcovb hlen2]
        omega

theorem lci_query (text : List Char) (w : Nat) (b : Nat) (hb : b ≤ byteLen text) :
    ∃ (i k1 cover : Nat) (line : TextLine),
      TextLines.line_index (TextLines.with_indent_width text w) b = Except.ok i ∧
      (TextLines.with_indent_width text w).lines.get? i = some line ∧
      (k1 = 0 ∨ k1 = 1) ∧ (headIsnBom text → k1 = 0) ∧
      LineOK text (byteLen text) k1 line cover ∧
      b ≤ cover ∧
      (line.start_index ≤ b ∨ (b < line.start_index ∧ i = 0)) ∧
      TextLines.line_and_column_index (TextLines.with_indent_width text w) b =
        Except.ok ⟨i, (if b < line.start_index then 0 else b - line.start_index) -
          TextLines.mbOvercount line.multi_byte_chars b⟩ := by
  obtain ⟨i, h, k1, cover, hli, hk1, hk1b, hOK, hcov, hpos⟩ := line_index_query text w b hb
  refine ⟨i, k1, cover, (TextLines.with_indent_width text w).lines.get ⟨i, h⟩,
    hli, List.get?_eq_get h, hk1, hk1b, hOK, hcov, hpos, ?_⟩
  unfold TextLines.line_and_column_index
  rw [hli]
  show (match (TextLines.with_indent_width text w).lines.get? i with
    | none => Except.error TextLines.vecIndexMessage
    | some line =>
      Except.ok (LineAndColumnIndex.mk i
        ((if b < line.start_index then 0 else b - line.start_index) -
          TextLines.mbOvercount line.multi_byte_chars b))) = _
  rw [List.get?_eq_get h]

theorem column_value (text : List Char) (w : Nat) (b : Nat) (hb : b ≤ byteLen text)
    (hbd : CharBoundary text b) :
    ∃ (i k1 cover : Nat) (line : TextLine),
      TextLines.line_index (TextLines.with_indent_width text w) b = Except.ok i ∧
      (TextLines.with_indent_width text w).lines.get? i = some line ∧
      (k1 = 0 ∨ k1 = 1) ∧ (headIsnBom text → k1 = 0) ∧
      LineOK text (byteLen text) k1 line cover ∧
      b ≤ cover ∧
      (line.start_index ≤ b ∨ (b < line.start_index ∧ i = 0)) ∧
      TextLines.line_and_column_index (TextLines.with_indent_width text w) b =
        Except.ok ⟨i, charsIn text line.start_index b⟩ := by
  obtain ⟨i, k1, cover, line, hli, hget, hk1, hk1b, hOK, hcov, hpos, hlci⟩ :=
    lci_query text w b hb
  refine ⟨i, k1, cover, line, hli, hget, hk1, hk1b, hOK, hcov, hpos, ?_⟩
  rw [hlci]
  by_cases hstb : line.start_index ≤ b
  · have hid := hOK.chars_eq b hstb hcov hbd
    rw [if_neg (by omega)]
    have : b - line.start_index - TextLines.mbOvercount line.multi_byte_chars b =
        charsIn text line.start_index b := by omega
    rw [this]
  · rw [if_pos (by omega)]
    have hover : TextLines.mbOvercount line.multi_byte_chars b = 0 := by
      apply mbOvercount_zero_of_ge
      intro m hm
      have := (hOK.mbcs_mem m hm).1
      omega
    rw [hover, charsIn_zero_of_le text _ _ (by omega)]

theorem display_query (text : List Char) (w : Nat) (b : Nat) (hb : b ≤ byteLen text) :
    ∃ (i col : Nat) (line : TextLine),
      TextLines.line_and_column_index (TextLines.with_indent_width text w) b =
        Except.ok ⟨i, col⟩ ∧
      (TextLines.with_indent_width text w).lines.get? i = some line ∧
      countLt line.tab_chars b ≤ col ∧
      (∀ iw, TextLines.line_and_column_display_with_indent_width
          (TextLines.with_indent_width text w) b iw =
        Except.ok ⟨i + 1, col - countLt line.tab_chars b +
          countLt line.tab_chars b * iw + 1⟩) := by
  obtain ⟨i, k1, cover, line, hli, hget, hk1, hk1b, hOK, hcov, hpos, hlci⟩ :=
    lci_query text w b hb
  have htw : (line.tab_chars.takeWhile (fun t => decide (t < b))).length =
      countLt line.tab_chars b :=
    takeWhileLt_length_sorted line.tab_chars b hOK.tabs_sorted
  refine ⟨i, (if b < line.start_index then 0 else b - line.start_index) -
    TextLines.mbOvercount line.multi_byte_chars b, line, hlci, hget, ?_, ?_⟩
  · by_cases hstb : line.start_index ≤ b
    · have hle := hOK.count_le b hstb hcov
      rw [if_neg (by omega)]
      omega
    · have hcnt0 : countLt line.tab_chars b = 0 := by
        apply countLt_zero_of_ge
        intro t ht
        have := (hOK.tabs_mem t ht).1
        omega
      omega
  · intro iw
    unfold TextLines.line_and_column_display_with_indent_width
    rw [hlci]
    dsimp only
    rw [hget]
    dsimp only
    rw [htw]

/-! ### Claims -/

/-- C9: for every input text and all byte offsets `b1 ≤ b2 ≤ text_length()`,
`line_index b1 ≤ line_index b2`: `line_index` is non-decreasing as the byte
offset increases. -/
theorem C9_line_index_monotone (text : List Char) (w b1 b2 : Nat)
    (h12 : b1 ≤ b2)
    (h2 : b2 ≤ TextLines.text_length (TextLines.with_indent_width text w)) :
    ∃ i1 i2,
      TextLines.line_index (TextLines.with_indent_width text w) b1 = Except.ok i1 ∧
      TextLines.line_index (TextLines.with_indent_width text w) b2 = Except.ok i2 ∧
      i1 ≤ i2 := by
  have ha1 : TextLines.assert_valid_byte_index (TextLines.with_indent_width text w) b1 =
      Except.ok () := by
    unfold TextLines.assert_valid_byte_index
    rw [if_neg (by omega)]
  have ha2 : TextLines.assert_valid_byte_index (TextLines.with_indent_width text w) b2 =
      Except.ok () := by
    unfold TextLines.assert_valid_byte_index
    rw [if_neg (by omega)]
  refine ⟨(TextLines.with_indent_width text w).lines.countP
      (fun l => decide (l.start_index ≤ b1)) - 1,
    (TextLines.with_indent_width text w).lines.countP
      (fun l => decide (l.start_index ≤ b2)) - 1, ?_, ?_, ?_⟩
  · unfold TextLines.line_index
    rw [ha1]
  · unfold TextLines.line_index
    rw [ha2]
  · have hm := countP_mono ((TextLines.with_indent_width text w).lines)
      (fun l => decide (l.start_index ≤ b1)) (fun l => decide (l.start_index ≤ b2))
      (by intro x _ hp
          simp only [decide_eq_true_eq] at hp ⊢
          omega)
    omega

/-- C9 witness at the text `"ab\ncd"` with byte offsets 1 and 4. -/
theorem C9_line_index_monotone_witness :
    ∃ i1 i2,
      TextLines.line_index (TextLines.with_indent_width ("ab\ncd").data 4) 1 = Except.ok i1 ∧
      TextLines.line_index (TextLines.with_indent_width ("ab\ncd").data 4) 4 = Except.ok i2 ∧
      i1 ≤ i2 :=
  C9_line_index_monotone ("ab\ncd").data 4 1 4 (by decide) (by decide)

/-- C4: `line_index` fails exactly on byte offsets above `text_length()`, and
`line_start`/`line_end`/`line_range` fail exactly on line indexes at or above
`lines_count()`; every failure carries the message naming the offending value
and the valid bound (and is the only way these operations fail); in
particular `line_start 1` on the single-line text `"test"` fails with the
message naming the bound 1. -/
theorem C4_error_messages (text : List Char) (w b i : Nat) :
    ((∃ msg, TextLines.line_index (TextLines.with_indent_width text w) b =
        Except.error msg) ↔
      TextLines.text_length (TextLines.with_indent_width text w) < b) ∧
    (TextLines.line_index (TextLines.with_indent_width text w) b =
        Except.error (TextLines.byteIndexMessage b
          (TextLines.text_length (TextLines.with_indent_width text w))) ∨
      ∃ v, TextLines.line_index (TextLines.with_indent_width text w) b = Except.ok v) ∧
    ((∃ msg, TextLines.line_start (TextLines.with_indent_width text w) i =
        Except.error msg) ↔
      TextLines.lines_count (TextLines.with_indent_width text w) ≤ i) ∧
    (TextLines.line_start (TextLines.with_indent_width text w) i =
        Except.error (TextLines.lineIndexMessage i
          (TextLines.lines_count (TextLines.with_indent_width text w))) ∨
      ∃ v, TextLines.line_start (TextLines.with_indent_width text w) i = Except.ok v) ∧
    ((∃ msg, TextLines.line_end (TextLines.with_indent_width text w) i =
        Except.error msg) ↔
      TextLines.lines_count (TextLines.with_indent_width text w) ≤ i) ∧
    (TextLines.line_end (TextLines.with_indent_width text w) i =
        Except.error (TextLines.lineIndexMessage i
          (TextLines.lines_count (TextLines.with_indent_width text w))) ∨
      ∃ v, TextLines.line_end (TextLines.with_indent_width text w) i = Except.ok v) ∧
    ((∃ msg, TextLines.line_range (TextLines.with_indent_width text w) i =
        Except.error msg) ↔
      TextLines.lines_count (TextLines.with_indent_width text w) ≤ i) ∧
    (TextLines.line_range (TextLines.with_indent_width text w) i =
        Except.error (TextLines.lineIndexMessage i
          (TextLines.lines_count (TextLines.with_indent_width text w))) ∨
      ∃ v, TextLines.line_range (TextLines.with_indent_width text w) i = Except.ok v) ∧
    TextLines.line_start (TextLines.with_indent_width ("test").data 4) 1 =
      Except.error (TextLines.lineIndexMessage 1 1) := by
  have hcl : TextLines.lines_count (TextLines.with_indent_width text w) =
      (TextLines.with_indent_width text w).lines.length := rfl
  refine ⟨⟨?_, ?_⟩, ?_, ⟨?_, ?_⟩, ?_, ⟨?_, ?_⟩, ?_, ⟨?_, ?_⟩, ?_, ?_⟩
  · rintro ⟨msg, hmsg⟩
    by_contra h
    unfold TextLines.line_index TextLines.assert_valid_byte_index at hmsg
    rw [if_neg h] at hmsg
    cases hmsg
  · intro h
    refine ⟨TextLines.byteIndexMessage b
      (TextLines.text_length (TextLines.with_indent_width text w)), ?_⟩
    unfold TextLines.line_index TextLines.assert_valid_byte_index
    rw [if_pos h]
  · by_cases h : TextLines.text_length (TextLines.with_indent_width text w) < b
    · refine Or.inl ?_
      unfold TextLines.line_index TextLines.assert_valid_byte_index
      rw [if_pos h]
    · refine Or.inr ⟨(TextLines.with_indent_width text w).lines.countP
        (fun l => decide (l.start_index ≤ b)) - 1, ?_⟩
      unfold TextLines.line_index TextLines.assert_valid_byte_index
      rw [if_neg h]
  · rintro ⟨msg, hmsg⟩
    rw [hcl]
    by_contra h
    unfold TextLines.line_start TextLines.assert_valid_line_index at hmsg
    rw [if_neg (by omega), List.get?_eq_get (by omega)] at hmsg
    cases hmsg
  · intro h
    rw [hcl] at h
    refine ⟨TextLines.lineIndexMessage i (TextLines.with_indent_width text w).lines.length, ?_⟩
    unfold TextLines.line_start TextLines.assert_valid_line_index
    rw [if_pos h]
  · by_cases h : (TextLines.with_indent_width text w).lines.length ≤ i
    · refine Or.inl ?_
      unfold TextLines.line_start TextLines.assert_valid_line_index
      rw [if_pos h]
      rfl
    · refine Or.inr ⟨((TextLines.with_indent_width text w).lines.get ⟨i, by omega⟩).start_index, ?_⟩
      unfold TextLines.line_start TextLines.assert_valid_line_index
      rw [if_neg h, List.get?_eq_get (by omega)]
  · rintro ⟨msg, hmsg⟩
    rw [hcl]
    by_contra h
    unfold TextLines.line_end TextLines.assert_valid_line_index at hmsg
    rw [if_neg (by omega), List.get?_eq_get (by omega)] at hmsg
    cases hmsg
  · intro h
    rw [hcl] at h
    refine ⟨TextLines.lineIndexMessage i (TextLines.with_indent_width text w).lines.length, ?_⟩
    unfold TextLines.line_end TextLines.assert_valid_line_index
    rw [if_pos h]
  · by_cases h : (TextLines.with_indent_width text w).lines.length ≤ i
    · refine Or.inl ?_
      unfold TextLines.line_end TextLines.assert_valid_line_index
      rw [if_pos h]
      rfl
    · refine Or.inr ⟨((TextLines.with_indent_width text w).lines.get ⟨i, by omega⟩).end_index, ?_⟩
      unfold TextLines.line_end TextLines.assert_valid_line_index
      rw [if_neg h, List.get?_eq_get (by omega)]
  · rintro ⟨msg, hmsg⟩
    rw [hcl]
    by_contra h
    unfold TextLines.line_range TextLines.assert_valid_line_index at hmsg
    rw [if_neg (by omega), List.get?_eq_get (by omega)] at hmsg
    cases hmsg
  · intro h
    rw [hcl] at h
    refine ⟨TextLines.lineIndexMessage i (TextLines.with_indent_width text w).lines.length, ?_⟩
    unfold TextLines.line_range TextLines.assert_valid_line_index
    rw [if_pos h]
  · by_cases h : (TextLines.with_indent_width text w).lines.length ≤ i
    · refine Or.inl ?_
      unfold TextLines.line_range TextLines.assert_valid_line_index
      rw [if_pos h]
      rfl
    · refine Or.inr ⟨(((TextLines.with_indent_width text w).lines.get ⟨i, by omega⟩).start_index,
        ((TextLines.with_indent_width text w).lines.get ⟨i, by omega⟩).end_index), ?_⟩
      unfold TextLines.line_range TextLines.assert_valid_line_index
      rw [if_neg h, List.get?_eq_get (by omega)]
  · rfl

/-- C7: for every input text (including the empty string) the constructed
index has at least one line, two consecutive lines are separated by exactly
the `'\n'` (one byte) or `"\r\n"` (two bytes) that terminates the earlier
line, and the last line ends at the total byte length of the text. -/
theorem C7_lines_invariant (text : List Char) (w : Nat) :
    1 ≤ TextLines.lines_count (TextLines.with_indent_width text w) ∧
    TextLines.line_end (TextLines.with_indent_width text w)
      (TextLines.lines_count (TextLines.with_indent_width text w) - 1) =
      Except.ok (byteLen text) ∧
    ∀ i, i + 1 < TextLines.lines_count (TextLines.with_indent_width text w) →
      ∃ e, TextLines.line_end (TextLines.with_indent_width text w) i = Except.ok e ∧
        ((charAtByte text e = some '\n' ∧
          TextLines.line_start (TextLines.with_indent_width text w) (i + 1) =
            Except.ok (e + 1)) ∨
         (charAtByte text e = some '\r' ∧ charAtByte text (e + 1) = some '\n' ∧
          TextLines.line_start (TextLines.with_indent_width text w) (i + 1) =
            Except.ok (e + 2))) := by
  obtain ⟨hne, hlast, hchain, hmem⟩ := with_indent_width_struct text w
  have hpos := lines_count_pos text w
  have hcl : TextLines.lines_count (TextLines.with_indent_width text w) =
      (TextLines.with_indent_width text w).lines.length := rfl
  refine ⟨hpos, ?_, ?_⟩
  · have hlen : (TextLines.with_indent_width text w).lines.length - 1 <
        (TextLines.with_indent_width text w).lines.length := by
      rw [hcl] at hpos
      omega
    have hgl : (TextLines.with_indent_width text w).lines.getLast? =
        some ((TextLines.with_indent_width text w).lines.get
          ⟨(TextLines.with_indent_width text w).lines.length - 1, hlen⟩) := by
      rw [List.getLast?_eq_get?, List.get?_eq_get hlen]
    have hend := hlast _ hgl
    unfold TextLines.line_end TextLines.assert_valid_line_index
    rw [hcl, if_neg (by omega), List.get?_eq_get hlen]
    show Except.ok (((TextLines.with_indent_width text w).lines.get
      ⟨(TextLines.with_indent_width text w).lines.length - 1, hlen⟩).end_index) =
      Except.ok (byteLen text)
    rw [hend]
  · intro i hi
    rw [hcl] at hi
    have hi0 : i < (TextLines.with_indent_width text w).lines.length := by omega
    have hi1 : i + 1 < (TextLines.with_indent_width text w).lines.length := hi
    have hconn : LineConn text ((TextLines.with_indent_width text w).lines.get ⟨i, hi0⟩)
        ((TextLines.with_indent_width text w).lines.get ⟨i + 1, hi1⟩) := by
      have hg := List.chain'_iff_get.mp hchain i (by omega)
      exact hg
    refine ⟨((TextLines.with_indent_width text w).lines.get ⟨i, hi0⟩).end_index, ?_, ?_⟩
    · unfold TextLines.line_end TextLines.assert_valid_line_index
      rw [if_neg (by omega), List.get?_eq_get hi0]
    · have hstart : TextLines.line_start (TextLines.with_indent_width text w) (i + 1) =
          Except.ok (((TextLines.with_indent_width text w).lines.get
            ⟨i + 1, hi1⟩).start_index) := by
        unfold TextLines.line_start TextLines.assert_valid_line_index
        rw [if_neg (by omega), List.get?_eq_get hi1]
      rcases hconn with ⟨h1, h2⟩ | ⟨h1, h2, h3⟩
      · exact Or.inl ⟨h1, by rw [hstart, h2]⟩
      · exact Or.inr ⟨h1, h2, by rw [hstart, h3]⟩

/-- C7 witness at the text `"a\r\nb"`, whose first line is CRLF-terminated. -/
theorem C7_lines_invariant_witness :
    ∃ e, TextLines.line_end (TextLines.with_indent_width ("a\r\nb").data 4) 0 =
        Except.ok e ∧
      ((charAtByte ("a\r\nb").data e = some '\n' ∧
        TextLines.line_start (TextLines.with_indent_width ("a\r\nb").data 4) 1 =
          Except.ok (e + 1)) ∨
       (charAtByte ("a\r\nb").data e = some '\r' ∧
        charAtByte ("a\r\nb").data (e + 1) = some '\n' ∧
        TextLines.line_start (TextLines.with_indent_width ("a\r\nb").data 4) 1 =
          Except.ok (e + 2))) :=
  (C7_lines_invariant ("a\r\nb").data 4).2.2 0 (by decide)

/-- C3: in every text whose line `i` is terminated by `"\r\n"`, `line_index`
at the byte offset of that `'\r'` (which is `line_end i`) resolves to line
`i`, the earlier line, not line `i + 1`. -/
theorem C3_crlf_line_index (text : List Char) (w i e : Nat)
    (hend : TextLines.line_end (TextLines.with_indent_width text w) i = Except.ok e)
    (hr : charAtByte text e = some '\r')
    (hn : charAtByte text (e + 1) = some '\n') :
    TextLines.line_index (TextLines.with_indent_width text w) e = Except.ok i := by
  obtain ⟨hne, hlast, hchain, hmem⟩ := with_indent_width_struct text w
  have hP := with_indent_width_pairwise text w
  have hi : i < (TextLines.with_indent_width text w).lines.length := by
    by_contra hlen
    unfold TextLines.line_end TextLines.assert_valid_line_index at hend
    rw [if_pos (by omega)] at hend
    cases hend
  have hev : e = ((TextLines.with_indent_width text w).lines.get ⟨i, hi⟩).end_index := by
    unfold TextLines.line_end TextLines.assert_valid_line_index at hend
    rw [if_neg (by omega), List.get?_eq_get hi] at hend
    have hend2 : Except.ok (((TextLines.with_indent_width text w).lines.get
        ⟨i, hi⟩).end_index) = (Except.ok e : Except String Nat) := hend
    injection hend2 with h
    exact h.symm
  obtain ⟨k0, _, _, hOK⟩ := with_indent_width_linesOK text w
  obtain ⟨k1, cover, _, _, hcova, hcovb, hline⟩ :=
    linesOK_get text (byteLen text) k0 _ i hi hOK
  have hTL := text_length_eq text w
  have hcovtot : cover ≤ byteLen text := hline.cover_le_total
  have hec : ((TextLines.with_indent_width text w).lines.get ⟨i, hi⟩).end_index ≤ cover :=
    hline.end_le_cover
  have hee : e ≤ byteLen text := by omega
  by_cases hlast2 : i + 1 < (TextLines.with_indent_width text w).lines.length
  · have hconn := List.chain'_iff_get.mp hchain i (by omega)
    have hnext : e < ((TextLines.with_indent_width text w).lines.get
        ⟨i + 1, by omega⟩).start_index := by
      rcases hconn with ⟨h1, h2⟩ | ⟨h1, h2, h3⟩
      · exfalso
        rw [← hev, hr] at h1
        simp at h1
      · rw [← hev] at h3
        omega
    have hcnt := countP_start_eq ((TextLines.with_indent_width text w).lines) e i hP hi
      (by rw [hev]; exact hline.start_le_end)
      (fun _ => hnext)
    unfold TextLines.line_index TextLines.assert_valid_byte_index
    rw [if_neg (by omega), hcnt]
    rfl
  · exfalso
    have hlen2 : (TextLines.with_indent_width text w).lines.length = i + 1 := by omega
    have hgl : (TextLines.with_indent_width text w).lines.getLast? =
        some ((TextLines.with_indent_width text w).lines.get ⟨i, hi⟩) := by
      have hidx : (TextLines.with_indent_width text w).lines.length - 1 = i := by omega
      rw [List.getLast?_eq_get?, hidx, List.get?_eq_get hi]
    have hebl : e = byteLen text := by
      rw [hev, hlast _ hgl]
    rw [hebl, charAtByte_none_of_ge text (byteLen text) (Nat.le_refl _)] at hr
    cases hr

/-- C3 witness at the text `"12\n3\r\n4\n5"`, whose line 1 ends in `"\r\n"`
with the `'\r'` at byte offset 4. -/
theorem C3_crlf_line_index_witness :
    TextLines.line_index (TextLines.with_indent_width ("12\n3\r\n4\n5").data 4) 4 =
      Except.ok 1 :=
  C3_crlf_line_index ("12\n3\r\n4\n5").data 4 1 4 (by rfl) (by rfl) (by rfl)

/-- C5: for every input text and every character-boundary byte offset
`b ≤ text_length()`, the column of `line_and_column_index b` is the number
of characters (code points) between the start of `b`'s line and `b`, not
the number of bytes; in particular on `"β1β\nΔβ1"` (β, Δ two bytes each)
offset 5 resolves to line 0, column 3. -/
theorem C5_column_chars :
    (∀ (text : List Char) (w b : Nat), CharBoundary text b →
      b ≤ TextLines.text_length (TextLines.with_indent_width text w) →
      ∃ i st, TextLines.line_index (TextLines.with_indent_width text w) b = Except.ok i ∧
        TextLines.line_start (TextLines.with_indent_width text w) i = Except.ok st ∧
        TextLines.line_and_column_index (TextLines.with_indent_width text w) b =
          Except.ok ⟨i, charsIn text st b⟩) ∧
    TextLines.line_and_column_index (TextLines.with_indent_width ("β1β\nΔβ1").data 4) 5 =
      Except.ok ⟨0, 3⟩ := by
  constructor
  · intro text w b hbd hb
    have hTL := text_length_eq text w
    obtain ⟨i, k1, cover, line, hli, hget, hk1, hk1b, hOK, hcov, hpos, hlci⟩ :=
      column_value text w b (by omega) hbd
    have hilen : i < (TextLines.with_indent_width text w).lines.length := by
      by_contra h
      rw [List.get?_eq_none.mpr (by omega)] at hget
      cases hget
    refine ⟨i, line.start_index, hli, ?_, hlci⟩
    unfold TextLines.line_start TextLines.assert_valid_line_index
    rw [if_neg (by omega), hget]
  · rfl

/-- C5 witness: the general statement applied at `"β1β\nΔβ1"`, offset 5. -/
theorem C5_column_chars_witness :
    ∃ i st,
      TextLines.line_index (TextLines.with_indent_width ("β1β\nΔβ1").data 4) 5 =
        Except.ok i ∧
      TextLines.line_start (TextLines.with_indent_width ("β1β\nΔβ1").data 4) i =
        Except.ok st ∧
      TextLines.line_and_column_index (TextLines.with_indent_width ("β1β\nΔβ1").data 4) 5 =
        Except.ok ⟨i, charsIn ("β1β\nΔβ1").data st 5⟩ :=
  C5_column_chars.1 ("β1β\nΔβ1").data 4 5 (by decide) (by decide)

/-- C6: for every input text, byte offset `b ≤ text_length()` and
`indent_width`, the display position is line `line_index + 1` and column
`(character_column − tab_count) + tab_count × indent_width + 1`, where
`tab_count` counts the line's tab characters strictly before `b` (the
subtraction does not underflow: `tab_count ≤ character_column`);
`line_and_column_display` is the same with the configured indent width; in
particular on `"\t1"` built with indent width 2, offset 1 displays as
line 1, column 3. -/
theorem C6_display_formula :
    (∀ (text : List Char) (w b iw : Nat),
      b ≤ TextLines.text_length (TextLines.with_indent_width text w) →
      ∃ lc line,
        TextLines.line_and_column_index (TextLines.with_indent_width text w) b =
          Except.ok lc ∧
        (TextLines.with_indent_width text w).lines.get? lc.line_index = some line ∧
        countLt line.tab_chars b ≤ lc.column_index ∧
        TextLines.line_and_column_display_with_indent_width
            (TextLines.with_indent_width text w) b iw =
          Except.ok ⟨lc.line_index + 1,
            lc.column_index - countLt line.tab_chars b +
              countLt line.tab_chars b * iw + 1⟩ ∧
        TextLines.line_and_column_display (TextLines.with_indent_width text w) b =
          TextLines.line_and_column_display_with_indent_width
            (TextLines.with_indent_width text w) b w) ∧
    TextLines.line_and_column_display (TextLines.with_indent_width ("\t1").data 2) 1 =
      Except.ok ⟨1, 3⟩ := by
  constructor
  · intro text w b iw hb
    have hTL := text_length_eq text w
    obtain ⟨i, col, line, hlci, hget, hcnt, hdisp⟩ := display_query text w b (by omega)
    refine ⟨⟨i, col⟩, line, hlci, hget, hcnt, hdisp iw, ?_⟩
    unfold TextLines.line_and_column_display
    rfl
  · rfl

/-- C6 witness: the general statement applied at `"\t1"`, offset 1, indent
width 2. -/
theorem C6_display_formula_witness :
    ∃ lc line,
      TextLines.line_and_column_index (TextLines.with_indent_width ("\t1").data 2) 1 =
        Except.ok lc ∧
      (TextLines.with_indent_width ("\t1").data 2).lines.get? lc.line_index = some line ∧
      countLt line.tab_chars 1 ≤ lc.column_index ∧
      TextLines.line_and_column_display_with_indent_width
          (TextLines.with_indent_width ("\t1").data 2) 1 2 =
        Except.ok ⟨lc.line_index + 1,
          lc.column_index - countLt line.tab_chars 1 +
            countLt line.tab_chars 1 * 2 + 1⟩ ∧
      TextLines.line_and_column_display (TextLines.with_indent_width ("\t1").data 2) 1 =
        TextLines.line_and_column_display_with_indent_width
          (TextLines.with_indent_width ("\t1").data 2) 1 2 :=
  C6_display_formula.1 ("\t1").data 2 1 2 (by decide)

/-- C8: `line_and_column_index` and `line_and_column_display` never fail for
any byte offset up to `text_length()`, including offsets strictly inside a
multi-byte character's encoding (both subtractions of the column
computations are non-underflowing); and `byte_index` never fails for any
column whatsoever as long as the line index is in range, out-of-range
columns degrading to the line's end offset. -/
theorem C8_graceful :
    (∀ (text : List Char) (w b : Nat),
      b ≤ TextLines.text_length (TextLines.with_indent_width text w) →
      ∃ lc line d,
        TextLines.line_and_column_index (TextLines.with_indent_width text w) b =
          Except.ok lc ∧
        (TextLines.with_indent_width text w).lines.get? lc.line_index = some line ∧
        TextLines.mbOvercount line.multi_byte_chars b ≤
          (if b < line.start_index then 0 else b - line.start_index) ∧
        countLt line.tab_chars b ≤ lc.column_index ∧
        TextLines.line_and_column_display (TextLines.with_indent_width text w) b =
          Except.ok d) ∧
    (∀ (text : List Char) (w li col : Nat),
      li < TextLines.lines_count (TextLines.with_indent_width text w) →
      ∃ line r,
        (TextLines.with_indent_width text w).lines.get? li = some line ∧
        TextLines.byte_index (TextLines.with_indent_width text w) ⟨li, col⟩ = some r ∧
        r ≤ line.end_index ∧
        (charsIn text line.start_index line.end_index < col → r = line.end_index)) := by
  constructor
  · intro text w b hb
    have hTL := text_length_eq text w
    obtain ⟨i, k1, cover, line, hli, hget, hk1, hk1b, hOK, hcov, hpos, hlci⟩ :=
      lci_query text w b (by omega)
    obtain ⟨i2, col2, line2, hlci2, hget2, hcnt2, hdisp2⟩ := display_query text w b (by omega)
    rw [hlci] at hlci2
    injection hlci2 with hrec
    have hii : i = i2 := congrArg LineAndColumnIndex.line_index hrec
    have hcc : (if b < line.start_index then 0 else b - line.start_index) -
        TextLines.mbOvercount line.multi_byte_chars b = col2 :=
      congrArg LineAndColumnIndex.column_index hrec
    rw [← hii, hget] at hget2
    injection hget2 with hll
    refine ⟨⟨i, (if b < line.start_index then 0 else b - line.start_index) -
        TextLines.mbOvercount line.multi_byte_chars b⟩, line,
      ⟨i + 1, col2 - countLt line2.tab_chars b + countLt line2.tab_chars b * w + 1⟩,
      hlci, hget, ?_, ?_, ?_⟩
    · by_cases hstb : line.start_index ≤ b
      · rw [if_neg (by omega)]
        have hle := hOK.count_le b hstb hcov
        omega
      · rw [if_pos (by omega)]
        have hover : TextLines.mbOvercount line.multi_byte_chars b = 0 := by
          apply mbOvercount_zero_of_ge
          intro m hm
          have := (hOK.mbcs_mem m hm).1
          omega
        omega
    · show countLt line.tab_chars b ≤
        (if b < line.start_index then 0 else b - line.start_index) -
          TextLines.mbOvercount line.multi_byte_chars b
      rw [hll] at hcc ⊢
      rw [hcc]
      exact hcnt2
    · unfold TextLines.line_and_column_display
      rw [← hii] at hdisp2
      exact hdisp2 w
  · intro text w li col hli
    obtain ⟨k0, hk0or, hk0bom, hOK⟩ := with_indent_width_linesOK text w
    have hlen : li < (TextLines.with_indent_width text w).lines.length := hli
    obtain ⟨k1, cover, hk1a, hk1b, hcova, hcovb, hline⟩ :=
      linesOK_get text (byteLen text) k0 _ li hlen hOK
    have hk1le : k1 ≤ 1 := by
      rcases Nat.eq_zero_or_pos li with rfl | hpos
      · rw [hk1a rfl]
        omega
      · rw [hk1b hpos]
        omega
    refine ⟨(TextLines.with_indent_width text w).lines.get ⟨li, hlen⟩,
      (if ((TextLines.with_indent_width text w).lines.get ⟨li, hlen⟩).end_index <
          ((TextLines.with_indent_width text w).lines.get ⟨li, hlen⟩).start_index + col +
            TextLines.byteIndexAdd ((TextLines.with_indent_width text w).lines.get
              ⟨li, hlen⟩).multi_byte_chars col
        then ((TextLines.with_indent_width text w).lines.get ⟨li, hlen⟩).end_index
        else ((TextLines.with_indent_width text w).lines.get ⟨li, hlen⟩).start_index + col +
          TextLines.byteIndexAdd ((TextLines.with_indent_width text w).lines.get
            ⟨li, hlen⟩).multi_byte_chars col),
      List.get?_eq_get hlen, ?_, ?_, ?_⟩
    · unfold TextLines.byte_index
      rw [List.get?_eq_get hlen]
    · by_cases hclamp : ((TextLines.with_indent_width text w).lines.get
          ⟨li, hlen⟩).end_index <
          ((TextLines.with_indent_width text w).lines.get ⟨li, hlen⟩).start_index + col +
            TextLines.byteIndexAdd ((TextLines.with_indent_width text w).lines.get
              ⟨li, hlen⟩).multi_byte_chars col
      · rw [if_pos hclamp]
      · rw [if_neg hclamp]
        omega
    · intro hcol
      have hmbend : ∀ m ∈ ((TextLines.with_indent_width text w).lines.get
          ⟨li, hlen⟩).multi_byte_chars,
          m.byte_index + m.length ≤
            ((TextLines.with_indent_width text w).lines.get ⟨li, hlen⟩).end_index ∧
          0 < m.length := by
        intro m hm
        obtain ⟨a1, a2, a3, a4, a5, a6, a7⟩ := hline.mbcs_mem m hm
        have hcov1 := hline.cover_le
        have hbyte_lt : m.byte_index <
            ((TextLines.with_indent_width text w).lines.get ⟨li, hlen⟩).end_index := by
          omega
        rcases hline.end_bound with hpos2 | hlenb
        · exact ⟨a5 _ hpos2 hbyte_lt, by omega⟩
        · refine ⟨?_, by omega⟩
          rw [hlenb]
          exact a6
      have hlciall : ∀ m ∈ ((TextLines.with_indent_width text w).lines.get
          ⟨li, hlen⟩).multi_byte_chars, m.line_char_index < col := by
        intro m hm
        obtain ⟨a1, a2, a3, a4, a5, a6, a7⟩ := hline.mbcs_mem m hm
        have hbyte_lt : m.byte_index <
            ((TextLines.with_indent_width text w).lines.get ⟨li, hlen⟩).end_index := by
          have := (hmbend m hm).1
          omega
        have hclt := charsIn_lt text
          ((TextLines.with_indent_width text w).lines.get ⟨li, hlen⟩).start_index
          m.byte_index
          ((TextLines.with_indent_width text w).lines.get ⟨li, hlen⟩).end_index
          a4 a1 hbyte_lt
        omega
      have hadd := byteIndexAdd_all _ col hlciall
      have hover := mbOvercount_all _ _ hmbend
      have hid := hline.chars_eq
        ((TextLines.with_indent_width text w).lines.get ⟨li, hlen⟩).end_index
        hline.start_le_end hline.end_le_cover hline.end_bound
      rw [hover] at hid
      rw [hadd]
      rw [if_pos (by omega)]

/-- C8 witness: the first part at `"β1"`, byte offset 1 (strictly inside
the two-byte `β`), the second part at `"ab"`, line 0, column 99 (far out of
range). -/
theorem C8_graceful_witness :
    (∃ lc line d,
      TextLines.line_and_column_index (TextLines.with_indent_width ("β1").data 4) 1 =
        Except.ok lc ∧
      (TextLines.with_indent_width ("β1").data 4).lines.get? lc.line_index = some line ∧
      TextLines.mbOvercount line.multi_byte_chars 1 ≤
        (if 1 < line.start_index then 0 else 1 - line.start_index) ∧
      countLt line.tab_chars 1 ≤ lc.column_index ∧
      TextLines.line_and_column_display (TextLines.with_indent_width ("β1").data 4) 1 =
        Except.ok d) ∧
    (∃ line r,
      (TextLines.with_indent_width ("ab").data 4).lines.get? 0 = some line ∧
      TextLines.byte_index (TextLines.with_indent_width ("ab").data 4) ⟨0, 99⟩ = some r ∧
      r ≤ line.end_index ∧
      (charsIn ("ab").data line.start_index line.end_index < 99 → r = line.end_index)) :=
  ⟨C8_graceful.1 ("β1").data 4 1 (by decide),
   C8_graceful.2 ("ab").data 4 0 99 (by decide)⟩

/-- C1 counterexample: on the text `"\r\n"`, byte offset 1 (the `'\n'` of
the `"\r\n"` pair) lies on a character boundary and does not exceed
`text_length()` (which is 2), yet `line_and_column_index 1` is
`{line 0, column 1}` and `byte_index` maps that back to 0 (clamped to line
0's `end_index`), not 1 — the claimed round-trip fails. -/
theorem C1_roundtrip_counterexample :
    CharBoundary ("\r\n").data 1 ∧
    1 ≤ TextLines.text_length (TextLines.with_indent_width ("\r\n").data 4) ∧
    TextLines.line_and_column_index (TextLines.with_indent_width ("\r\n").data 4) 1 =
      Except.ok ⟨0, 1⟩ ∧
    TextLines.byte_index (TextLines.with_indent_width ("\r\n").data 4) ⟨0, 1⟩ = some 0 ∧
    (some 0 : Option Nat) ≠ some 1 :=
  ⟨by decide, by decide, rfl, rfl, by decide⟩

theorem byteIndexAdd_eq_over : ∀ (mb : List MultiByteCharInfo) (col b : Nat),
    (∀ m ∈ mb, (m.line_char_index < col ↔ m.byte_index < b)) →
    (∀ m ∈ mb, m.byte_index < b → m.byte_index + m.length ≤ b) →
    TextLines.byteIndexAdd mb col = TextLines.mbOvercount mb b
  | [], _, _, _, _ => rfl
  | m :: mb, col, b, hiff, hfull => by
    unfold TextLines.byteIndexAdd
    by_cases h : m.line_char_index < col
    · rw [if_pos h]
      have hb2 : m.byte_index < b := (hiff m (List.mem_cons_self _ _)).mp h
      rw [mbOvercount_cons_lt _ _ _ hb2,
        if_neg (by have := hfull m (List.mem_cons_self _ _) hb2; omega),
        byteIndexAdd_eq_over mb col b (fun x hx => hiff x (List.mem_cons_of_mem _ hx))
          (fun x hx => hfull x (List.mem_cons_of_mem _ hx))]
    · rw [if_neg h]
      have hb2 : ¬ m.byte_index < b := fun hb3 => h ((hiff m (List.mem_cons_self _ _)).mpr hb3)
      rw [mbOvercount_cons_ge _ _ _ (by omega)]

/-- C1 (amended): for every input text that does not begin with the UTF-8
BOM and every character-boundary byte offset `b ≤ text_length()` such that
`b` is not the byte offset of a `'\n'` immediately preceded by `'\r'`,
`byte_index (line_and_column_index b)` returns `b`. -/
theorem C1_roundtrip (text : List Char) (w b : Nat)
    (hbom : headIsnBom text)
    (hbd : CharBoundary text b)
    (hb : b ≤ TextLines.text_length (TextLines.with_indent_width text w))
    (hnotCRLF : ¬ (1 ≤ b ∧ charAtByte text b = some '\n' ∧
      charAtByte text (b - 1) = some '\r')) :
    ∃ lc, TextLines.line_and_column_index (TextLines.with_indent_width text w) b =
        Except.ok lc ∧
      TextLines.byte_index (TextLines.with_indent_width text w) lc = some b := by
  have hTL := text_length_eq text w
  obtain ⟨i, k1, cover, line, hli, hget, hk1, hk1b, hOK, hcov, hpos, hlci⟩ :=
    column_value text w b (by omega) hbd
  have hk10 : k1 = 0 := hk1b hbom
  have hst : line.start_index ≤ b := by
    rcases hpos with h | ⟨hlt, hi0⟩
    · exact h
    · exfalso
      subst hi0
      obtain ⟨l, ls, hLF⟩ := List.exists_cons_of_ne_nil
        (lines_eq_nobom text w hbom ▸ linesFrom_ne_nil text 0 0 [] [] false 0 (byteLen text))
      have hl0 : l.start_index = 0 := by
        apply linesFrom_head_start text 0 0 [] [] false 0 (byteLen text) l ls
        rw [← lines_eq_nobom text w hbom]
        exact hLF
      rw [hLF] at hget
      have hget0 : (l :: ls).get? 0 = some l := rfl
      rw [hget0] at hget
      injection hget with hle
      rw [← hle, hl0] at hlt
      omega
  have hfull : ∀ m ∈ line.multi_byte_chars, m.byte_index < b →
      m.byte_index + m.length ≤ b := by
    intro m hm hmb
    obtain ⟨a1, a2, a3, a4, a5, a6, a7⟩ := hOK.mbcs_mem m hm
    rcases hbd with hpos2 | hlenb
    · exact a5 b hpos2 hmb
    · rw [hlenb]
      exact a6
  have hiff : ∀ m ∈ line.multi_byte_chars,
      (m.line_char_index < charsIn text line.start_index b ↔ m.byte_index < b) := by
    intro m hm
    obtain ⟨a1, a2, a3, a4, a5, a6, a7⟩ := hOK.mbcs_mem m hm
    rw [a7, hk10]
    constructor
    · intro hlt
      by_contra hge
      have := charsIn_mono text line.start_index b m.byte_index (by omega)
      omega
    · intro hlt
      have := charsIn_lt text line.start_index m.byte_index b a4 a1 hlt
      omega
  have hadd := byteIndexAdd_eq_over line.multi_byte_chars
    (charsIn text line.start_index b) b hiff hfull
  have hid := hOK.chars_eq b hst hcov hbd
  have hnoclamp : ¬ (line.end_index < line.start_index + charsIn text line.start_index b +
      TextLines.byteIndexAdd line.multi_byte_chars (charsIn text line.start_index b)) := by
    rw [hadd]
    intro hclamp
    have h1 := hOK.end_le_cover
    have h2 := hOK.cover_le
    have hbe : b = line.end_index + 1 ∧ cover = line.end_index + 1 := by omega
    obtain ⟨hrr, hnn⟩ := hOK.crlf hbe.2.symm
    apply hnotCRLF
    refine ⟨by omega, ?_, ?_⟩
    · rw [hbe.1, ← hbe.2]
      exact hnn
    · have : b - 1 = line.end_index := by omega
      rw [this]
      exact hrr
  refine ⟨⟨i, charsIn text line.start_index b⟩, hlci, ?_⟩
  unfold TextLines.byte_index
  dsimp only
  rw [hget]
  dsimp only
  rw [if_neg hnoclamp, hadd]
  have heq : line.start_index + charsIn text line.start_index b +
      TextLines.mbOvercount line.multi_byte_chars b = b := by omega
  rw [heq]

/-- C1 witness: the amended round-trip at `"12\n3\r\n4\n5"`, byte offset 4
(the `'\r'` of the `"\r\n"`). -/
theorem C1_roundtrip_witness :
    ∃ lc, TextLines.line_and_column_index
        (TextLines.with_indent_width ("12\n3\r\n4\n5").data 4) 4 = Except.ok lc ∧
      TextLines.byte_index (TextLines.with_indent_width ("12\n3\r\n4\n5").data 4) lc =
        some 4 :=
  C1_roundtrip ("12\n3\r\n4\n5").data 4 4 (by decide) (by decide) (by decide) (by decide)

/-! ### The character-index scan of `byte_index_from_char_index` -/

theorem mbChain_le : ∀ (lo : Nat) (mb : List MultiByteCharInfo) (hi : Nat),
    MbChain lo mb hi → lo ≤ hi
  | lo, [], hi, h => h
  | lo, m :: rest, hi, h => by
    obtain ⟨h1, h2, h3⟩ := h
    have := mbChain_le _ rest hi h3
    omega

theorem mbChain_sum : ∀ (lo : Nat) (mb : List MultiByteCharInfo) (hi : Nat),
    MbChain lo mb hi → lo + sumLen1 mb ≤ hi
  | lo, [], hi, h => by
    have hh : lo ≤ hi := h
    have e : sumLen1 [] = 0 := rfl
    omega
  | lo, m :: rest, hi, h => by
    obtain ⟨h1, h2, h3⟩ := h
    have hIH := mbChain_sum _ rest hi h3
    have e : sumLen1 (m :: rest) = (m.length - 1) + sumLen1 rest := by
      simp [sumLen1]
    omega

theorem mbChain_mono : ∀ (lo : Nat) (mb : List MultiByteCharInfo) (hi hi2 : Nat),
    MbChain lo mb hi → hi ≤ hi2 → MbChain lo mb hi2
  | lo, [], hi, hi2, h, hle => by
    show lo ≤ hi2
    have : lo ≤ hi := h
    omega
  | lo, m :: rest, hi, hi2, h, hle => by
    obtain ⟨h1, h2, h3⟩ := h
    exact ⟨h1, h2, mbChain_mono _ rest hi hi2 h3 hle⟩

theorem mbChain_snoc : ∀ (lo : Nat) (mb : List MultiByteCharInfo) (hi : Nat)
    (m : MultiByteCharInfo), MbChain lo mb hi → hi ≤ m.byte_index → 1 ≤ m.length →
    MbChain lo (mb ++ [m]) (m.byte_index + m.length)
  | lo, [], hi, m, h, hle, hlen => by
    refine ⟨?_, hlen, Nat.le_refl _⟩
    have : lo ≤ hi := h
    omega
  | lo, m1 :: rest, hi, m, h, hle, hlen => by
    obtain ⟨h1, h2, h3⟩ := h
    exact ⟨h1, h2, mbChain_snoc _ rest hi m h3 hle hlen⟩

theorem sumLen1_append (mb : List MultiByteCharInfo) (m : MultiByteCharInfo) :
    sumLen1 (mb ++ [m]) = sumLen1 mb + (m.length - 1) := by
  simp [sumLen1]

theorem scanMultiByte_spec : ∀ (mb : List MultiByteCharInfo) (ci lci lbi P : Nat),
    MbChain lbi mb P → lci + P < ci + lbi + sumLen1 mb →
    ∃ lciF lbiF, TextLines.scanMultiByte mb ci lci lbi = Except.ok (lciF, lbiF) ∧
      lciF + lbi + sumLen1 mb = lci + lbiF ∧ lbi ≤ lbiF ∧ lbiF ≤ P
  | [], ci, lci, lbi, P, hchain, _ => by
    refine ⟨lci, lbi, rfl, ?_, Nat.le_refl _, hchain⟩
    have e : sumLen1 [] = 0 := rfl
    omega
  | m :: rest, ci, lci, lbi, P, hchain, hlt => by
    obtain ⟨h1, h2, h3⟩ := hchain
    have hsum := mbChain_sum _ rest P h3
    have e : sumLen1 (m :: rest) = (m.length - 1) + sumLen1 rest := by
      simp [sumLen1]
    have hcond : ¬ (ci ≤ lci + (m.byte_index - lbi)) := by omega
    unfold TextLines.scanMultiByte
    rw [if_neg hcond]
    have hIH := scanMultiByte_spec rest ci (lci + (m.byte_index - lbi) + 1)
      (m.byte_index + m.length) P h3 (by omega)
    obtain ⟨lciF, lbiF, hres, heq, hle1, hle2⟩ := hIH
    refine ⟨lciF, lbiF, hres, by omega, by omega, hle2⟩

theorem scanLines_linesFrom : ∀ (cs : List Char) (b st : Nat)
    (mb : List MultiByteCharInfo) (tb : List Nat) (cr : Bool) (k total lci lbi ci : Nat),
    MbChain lbi mb b →
    lci + b + cs.length < ci + lbi + sumLen1 mb →
    b + byteLen cs = total →
    TextLines.scanLines (linesFrom cs b st mb tb cr k total) ci lci lbi = total
  | [], b, st, mb, tb, cr, k, total, lci, lbi, ci, hchain, hlt, htotal => by
    have htb : total = b := by
      simp only [byteLen] at htotal
      omega
    simp only [linesFrom]
    obtain ⟨lciF, lbiF, hres, heq, hle1, hle2⟩ :=
      scanMultiByte_spec mb ci lci lbi b hchain (by simp at hlt; omega)
    unfold TextLines.scanLines
    rw [hres]
    dsimp only
    have hcond : ¬ (ci ≤ lciF + (total - lbiF)) := by omega
    rw [if_neg hcond]
    show TextLines.scanLines [] ci (lciF + (total - lbiF)) total = total
    rfl
  | c :: rest, b, st, mb, tb, cr, k, total, lci, lbi, ci, hchain, hlt, htotal => by
    have hc1 := charLen_pos c
    have htotal2 : b + charLen c + byteLen rest = total := by
      simp only [byteLen] at htotal
      omega
    have hlen : (c :: rest).length = rest.length + 1 := rfl
    simp only [linesFrom]
    by_cases h1 : c = '\n'
    · subst h1
      rw [if_pos rfl]
      obtain ⟨l2, ls2, hLF2⟩ := List.exists_cons_of_ne_nil
        (linesFrom_ne_nil rest (b + 1) (b + 1) [] [] false 0 total)
      have hl2 : l2.start_index = b + 1 :=
        linesFrom_head_start rest (b + 1) (b + 1) [] [] false 0 total l2 ls2 hLF2
      rw [hLF2]
      obtain ⟨lciF, lbiF, hres, heq, hle1, hle2⟩ :=
        scanMultiByte_spec mb ci lci lbi b hchain (by rw [hlen] at hlt; omega)
      unfold TextLines.scanLines
      rw [hres]
      dsimp only
      rw [hl2]
      have hcond : ¬ (ci ≤ lciF + (b + 1 - lbiF)) := by
        rw [hlen] at hlt
        omega
      rw [if_neg hcond]
      rw [← hLF2]
      have hclnl : charLen '\n' = 1 := by decide
      refine scanLines_linesFrom rest (b + 1) (b + 1) [] [] false 0 total
        (lciF + (b + 1 - lbiF)) (b + 1) ci (Nat.le_refl _) ?_ (by omega)
      have e : sumLen1 [] = 0 := rfl
      rw [hlen] at hlt
      omega
    · rw [if_neg h1]
      by_cases h2 : c = '\t'
      · subst h2
        rw [if_pos rfl]
        have hclt : charLen '\t' = 1 := by decide
        refine scanLines_linesFrom rest (b + 1) st mb (tb ++ [b]) false (k + 1) total
          lci lbi ci (mbChain_mono lbi mb b (b + 1) hchain (by omega)) ?_ (by omega)
        rw [hlen] at hlt
        omega
      · rw [if_neg h2]
        by_cases h3 : 1 < charLen c
        · rw [if_pos h3]
          refine scanLines_linesFrom rest (b + charLen c) st (mb ++ [⟨b, k, charLen c⟩])
            tb (decide (c = '\r')) (k + 1) total lci lbi ci ?_ ?_ (by omega)
          · have := mbChain_snoc lbi mb b ⟨b, k, charLen c⟩ hchain (Nat.le_refl _)
              (by show 1 ≤ charLen c; omega)
            exact this
          · rw [sumLen1_append]
            show lci + (b + charLen c) + rest.length <
              ci + lbi + (sumLen1 mb + (charLen c - 1))
            rw [hlen] at hlt
            omega
        · rw [if_neg h3]
          refine scanLines_linesFrom rest (b + charLen c) st mb tb
            (decide (c = '\r')) (k + 1) total lci lbi ci
            (mbChain_mono lbi mb b (b + charLen c) hchain (by omega)) ?_ (by omega)
          rw [hlen] at hlt
          omega

/-- C2 counterexample: on the text consisting of a single BOM character the
total character count is 1 and the total byte length is 3 (which is also
`text_length()`), but `byte_index_from_char_index 2` returns 2, not 3: the
scan never records the stripped BOM, so it counts its three bytes as three
separate characters and index 2 still lands inside the text. -/
theorem C2_clamp_counterexample :
    ([BOM_CHAR] : List Char).length < 2 ∧
    TextLines.byte_index_from_char_index (TextLines.with_indent_width [BOM_CHAR] 4) 2 = 2 ∧
    TextLines.text_length (TextLines.with_indent_width [BOM_CHAR] 4) = 3 ∧
    byteLen [BOM_CHAR] = 3 ∧ (2 : Nat) ≠ 3 :=
  ⟨by decide, rfl, rfl, by decide, by decide⟩

/-- C2 (amended): counting a leading BOM as three characters (its byte
length), `byte_index_from_char_index` returns the total byte length for
every character index strictly beyond the text's total character count;
the operation is total, so it never fails for any character index. -/
theorem C2_clamp (text : List Char) (w ci : Nat)
    (hci : text.length + (if headIsnBom text then 0 else 2) < ci) :
    TextLines.byte_index_from_char_index (TextLines.with_indent_width text w) ci =
      byteLen text := by
  unfold TextLines.byte_index_from_char_index
  by_cases hbom : headIsnBom text
  · rw [lines_eq_nobom text w hbom]
    rw [if_pos hbom] at hci
    exact scanLines_linesFrom text 0 0 [] [] false 0 (byteLen text) 0 0 ci
      (Nat.le_refl 0) (by have e : sumLen1 [] = 0 := rfl; omega) (by omega)
  · obtain ⟨rest, hrest⟩ : ∃ rest, text = BOM_CHAR :: rest := by
      cases text with
      | nil => exact absurd trivial hbom
      | cons c rest =>
        refine ⟨rest, ?_⟩
        have h1 : ¬ c ≠ BOM_CHAR := hbom
        have h2 : c = BOM_CHAR := by
          by_contra hc
          exact h1 hc
        rw [h2]
    subst hrest
    rw [lines_eq_bom rest w]
    rw [if_neg hbom] at hci
    have hlen : (BOM_CHAR :: rest).length = rest.length + 1 := rfl
    have hbl : byteLen (BOM_CHAR :: rest) = 3 + byteLen rest := by
      simp only [byteLen]
      have : charLen BOM_CHAR = 3 := by decide
      omega
    rw [hbl]
    exact scanLines_linesFrom rest 3 3 [] [] false 1 (3 + byteLen rest) 0 0 ci
      (by show (0 : Nat) ≤ 3; omega)
      (by have e : sumLen1 [] = 0 := rfl
          rw [hlen] at hci
          omega)
      (by omega)

/-- C2 witness: on `"βx"` (3 bytes, 2 characters, no BOM), character index
5 is past the text and maps to the total byte length 3. -/
theorem C2_clamp_witness :
    TextLines.byte_index_from_char_index (TextLines.with_indent_width ("βx").data 4) 5 =
      byteLen ("βx").data :=
  C2_clamp ("βx").data 4 5 (by decide)


/-! ### Byte-shift correspondence for `byte_index_from_char_index` on BOM texts -/

theorem forall2_mem_right {α β : Type} {R : α → β → Prop} :
    ∀ {xs : List α} {ys : List β}, List.Forall₂ R xs ys →
    ∀ y ∈ ys, ∃ x ∈ xs, R x y
  | _, _, List.Forall₂.nil, y, hy => absurd hy (List.not_mem_nil _)
  | _, _, List.Forall₂.cons h1 h2, y, hy => by
    rcases List.mem_cons.mp hy with rfl | hy2
    · exact ⟨_, List.mem_cons_self _ _, h1⟩
    · obtain ⟨x, hx, hr⟩ := forall2_mem_right h2 y hy2
      exact ⟨x, List.mem_cons_of_mem _ hx, hr⟩

theorem forall2_snoc {α β : Type} {R : α → β → Prop} :
    ∀ {xs : List α} {ys : List β}, List.Forall₂ R xs ys → ∀ {x : α} {y : β}, R x y →
    List.Forall₂ R (xs ++ [x]) (ys ++ [y])
  | _, _, List.Forall₂.nil, x, y, h => List.Forall₂.cons h List.Forall₂.nil
  | _, _, List.Forall₂.cons h1 h2, x, y, h => List.Forall₂.cons h1 (forall2_snoc h2 h)

/-- Sliding the start state of the multi-byte scan from `(0, 0)` to `(t, t)`
does not change its outcome on a non-empty record list whose first record
starts at byte `t` or later. -/
theorem scanMultiByte_slide (m : MultiByteCharInfo) (rest : List MultiByteCharInfo)
    (ci t : Nat) (hci : t ≤ ci) (hb : t ≤ m.byte_index) :
    TextLines.scanMultiByte (m :: rest) ci t t =
      TextLines.scanMultiByte (m :: rest) ci 0 0 := by
  unfold TextLines.scanMultiByte
  by_cases hc : ci ≤ m.byte_index
  · rw [if_pos (show ci ≤ t + (m.byte_index - t) by omega),
      if_pos (show ci ≤ 0 + (m.byte_index - 0) by omega)]
    have e : t + (ci - t) = 0 + (ci - 0) := by omega
    rw [e]
  · rw [if_neg (show ¬ ci ≤ t + (m.byte_index - t) by omega),
      if_neg (show ¬ ci ≤ 0 + (m.byte_index - 0) by omega)]
    have e : t + (m.byte_index - t) + 1 = 0 + (m.byte_index - 0) + 1 := by omega
    rw [e]

/-- Sliding the start state of the line scan from `(0, 0)` to `(t, t)` does
not change its outcome when every boundary the first comparison can touch
lies at byte `t` or later and the queried character index is at least `t`. -/
theorem scanLines_slide (l : TextLine) (ls : List TextLine) (ci t : Nat)
    (hci : t ≤ ci)
    (hmb : ∀ m ∈ l.multi_byte_chars, t ≤ m.byte_index)
    (hend : t ≤ (match ls with | next :: _ => next.start_index | [] => l.end_index)) :
    TextLines.scanLines (l :: ls) ci t t = TextLines.scanLines (l :: ls) ci 0 0 := by
  unfold TextLines.scanLines
  cases hmbcs : l.multi_byte_chars with
  | cons m rest =>
    rw [scanMultiByte_slide m rest ci t hci
      (hmb m (by rw [hmbcs]; exact List.mem_cons_self _ _))]
  | nil =>
    dsimp only [TextLines.scanMultiByte]
    cases ls with
    | nil =>
      have hend2 : t ≤ l.end_index := hend
      dsimp only
      by_cases hc : ci ≤ l.end_index
      · rw [if_pos (show ci ≤ t + (l.end_index - t) by omega),
          if_pos (show ci ≤ 0 + (l.end_index - 0) by omega)]
        omega
      · rw [if_neg (show ¬ ci ≤ t + (l.end_index - t) by omega),
          if_neg (show ¬ ci ≤ 0 + (l.end_index - 0) by omega)]
        have e : t + (l.end_index - t) = 0 + (l.end_index - 0) := by omega
        rw [e]
    | cons next ls2 =>
      have hend2 : t ≤ next.start_index := hend
      dsimp only
      by_cases hc : ci ≤ next.start_index
      · rw [if_pos (show ci ≤ t + (next.start_index - t) by omega),
          if_pos (show ci ≤ 0 + (next.start_index - 0) by omega)]
        omega
      · rw [if_neg (show ¬ ci ≤ t + (next.start_index - t) by omega),
          if_neg (show ¬ ci ≤ 0 + (next.start_index - 0) by omega)]
        have e : t + (next.start_index - t) = 0 + (next.start_index - 0) := by omega
        rw [e]

/-- A character index at most `t` resolves to itself when the scan starts at
`(0, 0)` and every boundary the first comparison can touch lies at byte `t`
or later: the first `t` bytes are treated as `t` implicit one-byte
characters. -/
theorem scanLines_low (l : TextLine) (ls : List TextLine) (ci t : Nat)
    (hci : ci ≤ t)
    (hmb : ∀ m ∈ l.multi_byte_chars, t ≤ m.byte_index)
    (hend : t ≤ (match ls with | next :: _ => next.start_index | [] => l.end_index)) :
    TextLines.scanLines (l :: ls) ci 0 0 = ci := by
  unfold TextLines.scanLines
  cases hmbcs : l.multi_byte_chars with
  | cons m rest =>
    have hbm : t ≤ m.byte_index := hmb m (by rw [hmbcs]; exact List.mem_cons_self _ _)
    unfold TextLines.scanMultiByte
    rw [if_pos (show ci ≤ 0 + (m.byte_index - 0) by omega)]
    dsimp only
    omega
  | nil =>
    dsimp only [TextLines.scanMultiByte]
    cases ls with
    | nil =>
      have hend2 : t ≤ l.end_index := hend
      dsimp only
      rw [if_pos (show ci ≤ 0 + (l.end_index - 0) by omega)]
      omega
    | cons next ls2 =>
      have hend2 : t ≤ next.start_index := hend
      dsimp only
      rw [if_pos (show ci ≤ 0 + (next.start_index - 0) by omega)]
      omega

/-- Shifting every byte offset of the records and of the scan state by `d`
shifts the outcome of the multi-byte scan by `d`. -/
theorem scanMultiByte_shift : ∀ (mb mb2 : List MultiByteCharInfo) (d ci lci lbi : Nat),
    List.Forall₂ (MbcShift d) mb mb2 →
    TextLines.scanMultiByte mb2 (ci + d) (lci + d) (lbi + d) =
      (match TextLines.scanMultiByte mb ci lci lbi with
       | Except.error r => Except.error (r + d)
       | Except.ok p => Except.ok (p.1 + d, p.2 + d))
  | [], [], d, ci, lci, lbi, _ => rfl
  | [], m2 :: mb2, d, ci, lci, lbi, hf => nomatch hf
  | m :: mb, [], d, ci, lci, lbi, hf => nomatch hf
  | m :: mb, m2 :: mb2, d, ci, lci, lbi, hf => by
    obtain ⟨h1, h2⟩ := List.forall₂_cons.mp hf
    obtain ⟨hb, hl⟩ := h1
    unfold TextLines.scanMultiByte
    rw [hb, hl]
    by_cases hc : ci ≤ lci + (m.byte_index - lbi)
    · rw [if_pos hc,
        if_pos (show ci + d ≤ lci + d + (m.byte_index + d - (lbi + d)) by omega)]
      dsimp only
      congr 1
      omega
    · rw [if_neg hc,
        if_neg (show ¬ ci + d ≤ lci + d + (m.byte_index + d - (lbi + d)) by omega)]
      have e1 : lci + d + (m.byte_index + d - (lbi + d)) + 1 =
          lci + (m.byte_index - lbi) + 1 + d := by omega
      have e2 : m.byte_index + d + m.length = m.byte_index + m.length + d := by omega
      rw [e1, e2]
      exact scanMultiByte_shift mb mb2 d ci (lci + (m.byte_index - lbi) + 1)
        (m.byte_index + m.length) h2

/-- Shifting every byte offset of the line table and of the scan state by `d`
shifts the result of the line scan by `d`. -/
theorem scanLines_shift : ∀ (L L2 : List TextLine) (d ci lci lbi : Nat),
    LinesShift d L L2 →
    TextLines.scanLines L2 (ci + d) (lci + d) (lbi + d) =
      TextLines.scanLines L ci lci lbi + d
  | [], [], d, ci, lci, lbi, _ => rfl
  | [], l2 :: L2, d, ci, lci, lbi, hf => nomatch hf
  | l :: L, [], d, ci, lci, lbi, hf => nomatch hf
  | l :: L, l2 :: L2, d, ci, lci, lbi, hf => by
    obtain ⟨h1, h2⟩ := List.forall₂_cons.mp hf
    obtain ⟨hs, he, hmb⟩ := h1
    unfold TextLines.scanLines
    rw [scanMultiByte_shift l.multi_byte_chars l2.multi_byte_chars d ci lci lbi hmb]
    cases hres : TextLines.scanMultiByte l.multi_byte_chars ci lci lbi with
    | error r => rfl
    | ok p =>
      obtain ⟨lc, lb⟩ := p
      dsimp only
      cases L with
      | nil =>
        cases h2
        dsimp only
        rw [he]
        by_cases hc : ci ≤ lc + (l.end_index - lb)
        · rw [if_pos (show ci + d ≤ lc + d + (l.end_index + d - (lb + d)) by omega),
            if_pos hc]
          omega
        · rw [if_neg (show ¬ ci + d ≤ lc + d + (l.end_index + d - (lb + d)) by omega),
            if_neg hc]
          show l.end_index + d = l.end_index + d
          rfl
      | cons next L3 =>
        obtain ⟨next2, L23, rfl, h3, h4⟩ : ∃ next2 L23,
            L2 = next2 :: L23 ∧ LineShift d next next2 ∧
              List.Forall₂ (LineShift d) L3 L23 := by
          cases h2 with
          | cons h3 h4 => exact ⟨_, _, rfl, h3, h4⟩
        dsimp only
        rw [h3.1]
        by_cases hc : ci ≤ lc + (next.start_index - lb)
        · rw [if_pos (show ci + d ≤ lc + d + (next.start_index + d - (lb + d)) by omega),
            if_pos hc]
          omega
        · rw [if_neg (show ¬ ci + d ≤ lc + d + (next.start_index + d - (lb + d)) by omega),
            if_neg hc]
          have e1 : lc + d + (next.start_index + d - (lb + d)) =
              lc + (next.start_index - lb) + d := by omega
          have e2 : next.start_index + d = next.start_index + d := rfl
          rw [e1]
          exact scanLines_shift (next :: L3) (next2 :: L23) d ci
            (lc + (next.start_index - lb)) next.start_index h2

/-- Shifting the byte cursor, the line start, the accumulated multi-byte
records and the final byte total of the spec-level line recursion by `d`
shifts every produced line by `d` (tab offsets and character counters do
not participate in the shift relation). -/
theorem linesFrom_shift : ∀ (cs : List Char) (b st : Nat)
    (mb mb2 : List MultiByteCharInfo) (tb tb2 : List Nat) (cr : Bool)
    (k k2 total d : Nat),
    List.Forall₂ (MbcShift d) mb mb2 → (cr = true → 1 ≤ b) →
    LinesShift d (linesFrom cs b st mb tb cr k total)
      (linesFrom cs (b + d) (st + d) mb2 tb2 cr k2 (total + d))
  | [], b, st, mb, mb2, tb, tb2, cr, k, k2, total, d, hmb, hcr => by
    simp only [linesFrom]
    exact List.Forall₂.cons ⟨rfl, rfl, hmb⟩ List.Forall₂.nil
  | c :: rest, b, st, mb, mb2, tb, tb2, cr, k, k2, total, d, hmb, hcr => by
    have hc1 := charLen_pos c
    simp only [linesFrom]
    by_cases h1 : c = '\n'
    · subst h1
      simp only [if_pos rfl]
      refine List.Forall₂.cons ⟨rfl, ?_, hmb⟩ ?_
      · cases cr with
        | false => rfl
        | true =>
          have hb := hcr rfl
          show b + d - 1 = b - 1 + d
          omega
      · have e : b + d + 1 = b + 1 + d := by omega
        rw [e]
        exact linesFrom_shift rest (b + 1) (b + 1) [] [] [] [] false 0 0 total d
          List.Forall₂.nil (by intro h; cases h)
    · simp only [if_neg h1]
      by_cases h2 : c = '\t'
      · subst h2
        simp only [if_pos rfl]
        have e : b + d + 1 = b + 1 + d := by omega
        rw [e]
        exact linesFrom_shift rest (b + 1) st mb mb2 (tb ++ [b]) (tb2 ++ [b + d])
          false (k + 1) (k2 + 1) total d hmb (by intro h; cases h)
      · simp only [if_neg h2]
        by_cases h3 : 1 < charLen c
        · simp only [if_pos h3]
          have e : b + d + charLen c = b + charLen c + d := by omega
          rw [e]
          exact linesFrom_shift rest (b + charLen c) st (mb ++ [⟨b, k, charLen c⟩])
            (mb2 ++ [⟨b + d, k2, charLen c⟩]) tb tb2 (decide (c = '\r'))
            (k + 1) (k2 + 1) total d
            (forall2_snoc hmb ⟨rfl, rfl⟩) (by intro _; omega)
        · simp only [if_neg h3]
          have e : b + d + charLen c = b + charLen c + d := by omega
          rw [e]
          exact linesFrom_shift rest (b + charLen c) st mb mb2 tb tb2
            (decide (c = '\r')) (k + 1) (k2 + 1) total d hmb (by intro _; omega)

/-- Every multi-byte character recorded for a text with a leading BOM starts
at byte offset 3 or later: the stripped BOM itself (bytes 0 to 2) is never
recorded. -/
theorem bom_mbcs_ge3 (rest : List Char) (w : Nat) :
    ∀ l ∈ (TextLines.with_indent_width (BOM_CHAR :: rest) w).lines,
    ∀ m ∈ l.multi_byte_chars, 3 ≤ m.byte_index := by
  intro l hl m hm
  have hge : 3 ≤ l.start_index := by
    obtain ⟨hne, _, _, _⟩ := with_indent_width_struct (BOM_CHAR :: rest) w
    obtain ⟨l0, ls0, hL⟩ := List.exists_cons_of_ne_nil hne
    have hl0 : l0.start_index = 3 := by
      apply linesFrom_head_start rest 3 3 [] [] false 1 (3 + byteLen rest) l0 ls0
      rw [← lines_eq_bom rest w]
      exact hL
    have hpw := with_indent_width_pairwise (BOM_CHAR :: rest) w
    rw [hL] at hpw hl
    rcases List.mem_cons.mp hl with rfl | hl2
    · omega
    · have := (List.pairwise_cons.mp hpw).1 l hl2
      omega
  obtain ⟨k0, _, _, hOK⟩ := with_indent_width_linesOK (BOM_CHAR :: rest) w
  obtain ⟨⟨n, hn⟩, hget⟩ := List.mem_iff_get.mp hl
  obtain ⟨k1, cover, _, _, _, _, hline⟩ :=
    linesOK_get (BOM_CHAR :: rest) (byteLen (BOM_CHAR :: rest)) k0
      (TextLines.with_indent_width (BOM_CHAR :: rest) w).lines n hn hOK
  have hsm := (hline.mbcs_mem m (by rw [hget]; exact hm)).1
  rw [hget] at hsm
  omega

/-- C10 counterexample: on the text consisting of two BOM characters the
second BOM is recorded as an ordinary multi-byte character at byte 3, while
the BOM-less remainder text consists of a single BOM that is itself stripped
during construction; character index 1 + 3 of the full text resolves to
byte 6, but character index 1 of the remainder resolves to byte 1 and
1 + 3 = 4 ≠ 6: the unqualified shift-by-3 relation between the two texts
fails. -/
theorem C10_bom_counterexample :
    TextLines.byte_index_from_char_index
      (TextLines.with_indent_width [BOM_CHAR, BOM_CHAR] 4) (1 + 3) = 6 ∧
    TextLines.byte_index_from_char_index
      (TextLines.with_indent_width [BOM_CHAR] 4) 1 + 3 = 4 ∧
    (6 : Nat) ≠ 4 :=
  ⟨rfl, rfl, by decide⟩

/-- C10 (amended: the shift-by-3 relation to the BOM-less text additionally
requires that the remainder of the text does not itself begin with a BOM,
since a second BOM would be stripped from the remainder text but recorded in
the full text).  For every text with a leading BOM,
`byte_index_from_char_index` counts each of the BOM's three bytes as a
separate character: (1) every character index up to 3 maps to the same byte
offset, so indices 0, 1 and 2 map to bytes 0, 1 and 2; (2) the BOM is never
recorded as a multi-byte character: every recorded multi-byte character of
every line starts at byte 3 or later; (3) if the remainder `rest` does not
itself begin with a BOM, every subsequent character index is shifted by 3
relative to the index built from `rest` alone. -/
theorem C10_bom_chars :
    (∀ (rest : List Char) (w ci : Nat), ci ≤ 3 →
      TextLines.byte_index_from_char_index
        (TextLines.with_indent_width (BOM_CHAR :: rest) w) ci = ci) ∧
    (∀ (rest : List Char) (w : Nat),
      ∀ l ∈ (TextLines.with_indent_width (BOM_CHAR :: rest) w).lines,
      ∀ m ∈ l.multi_byte_chars, 3 ≤ m.byte_index) ∧
    (∀ (rest : List Char) (w ci : Nat), headIsnBom rest →
      TextLines.byte_index_from_char_index
        (TextLines.with_indent_width (BOM_CHAR :: rest) w) (ci + 3) =
      TextLines.byte_index_from_char_index
        (TextLines.with_indent_width rest w) ci + 3) := by
  refine ⟨?_, fun rest w => bom_mbcs_ge3 rest w, ?_⟩
  · intro rest w ci hci
    obtain ⟨hne, hlast, hchain, hmem⟩ := with_indent_width_struct (BOM_CHAR :: rest) w
    obtain ⟨l0, ls0, hL⟩ := List.exists_cons_of_ne_nil hne
    have hl0 : l0.start_index = 3 := by
      apply linesFrom_head_start rest 3 3 [] [] false 1 (3 + byteLen rest) l0 ls0
      rw [← lines_eq_bom rest w]
      exact hL
    have hpw := with_indent_width_pairwise (BOM_CHAR :: rest) w
    rw [hL] at hpw
    have hmb3 : ∀ m ∈ l0.multi_byte_chars, 3 ≤ m.byte_index := fun m hm =>
      bom_mbcs_ge3 rest w l0 (by rw [hL]; exact List.mem_cons_self _ _) m hm
    have hend3 : 3 ≤ (match ls0 with | next :: _ => next.start_index | [] => l0.end_index) := by
      cases ls0 with
      | nil =>
        have h1 := hmem l0 (by rw [hL]; exact List.mem_cons_self _ _)
        show 3 ≤ l0.end_index
        omega
      | cons next ls1 =>
        have h1 := (List.pairwise_cons.mp hpw).1 next (List.mem_cons_self _ _)
        show 3 ≤ next.start_index
        omega
    show TextLines.scanLines
      (TextLines.with_indent_width (BOM_CHAR :: rest) w).lines ci 0 0 = ci
    rw [hL]
    exact scanLines_low l0 ls0 ci 3 hci hmb3 hend3
  · intro rest w ci hrest
    have hshift : LinesShift 3 (TextLines.with_indent_width rest w).lines
        (TextLines.with_indent_width (BOM_CHAR :: rest) w).lines := by
      rw [lines_eq_bom rest w, lines_eq_nobom rest w hrest]
      have e : 3 + byteLen rest = byteLen rest + 3 := by omega
      rw [e]
      exact linesFrom_shift rest 0 0 [] [] [] [] false 0 1 (byteLen rest) 3
        List.Forall₂.nil (by intro h; cases h)
    obtain ⟨hneP, _, _, _⟩ := with_indent_width_struct rest w
    obtain ⟨l1, ls1, hLP⟩ := List.exists_cons_of_ne_nil hneP
    obtain ⟨hneB, _, _, _⟩ := with_indent_width_struct (BOM_CHAR :: rest) w
    obtain ⟨l2, ls2, hLB⟩ := List.exists_cons_of_ne_nil hneB
    rw [hLP, hLB] at hshift
    obtain ⟨h12, htail⟩ := List.forall₂_cons.mp hshift
    have hmb3 : ∀ m ∈ l2.multi_byte_chars, 3 ≤ m.byte_index := by
      intro m hm
      obtain ⟨m1, _, hms⟩ := forall2_mem_right h12.2.2 m hm
      have := hms.1
      omega
    have hend3 : 3 ≤ (match ls2 with | next :: _ => next.start_index | [] => l2.end_index) := by
      cases ls1 with
      | nil =>
        cases htail
        show 3 ≤ l2.end_index
        have h1 := h12.2.1
        omega
      | cons n1 ls1b =>
        cases ls2 with
        | nil => exact nomatch htail
        | cons n2 ls2b =>
          obtain ⟨hn, _⟩ := List.forall₂_cons.mp htail
          show 3 ≤ n2.start_index
          have h1 := hn.1
          omega
    show TextLines.scanLines
        (TextLines.with_indent_width (BOM_CHAR :: rest) w).lines (ci + 3) 0 0 =
      TextLines.scanLines (TextLines.with_indent_width rest w).lines ci 0 0 + 3
    rw [hLB, hLP]
    rw [← scanLines_slide l2 ls2 (ci + 3) 3 (by omega) hmb3 hend3]
    exact scanLines_shift (l1 :: ls1) (l2 :: ls2) 3 ci 0 0
      (List.Forall₂.cons h12 htail)

/-- Witness for C10 on the text BOM ++ "βx": character index 2 maps to
byte 2, the single recorded multi-byte character β starts at byte 3, and
character index 1 + 3 resolves 3 bytes past character index 1 of the
BOM-less text "βx". -/
theorem C10_bom_chars_witness :
    TextLines.byte_index_from_char_index
      (TextLines.with_indent_width (BOM_CHAR :: ("βx").data) 4) 2 = 2 ∧
    (3 : Nat) ≤ (MultiByteCharInfo.mk 3 1 2).byte_index ∧
    TextLines.byte_index_from_char_index
      (TextLines.with_indent_width (BOM_CHAR :: ("βx").data) 4) (1 + 3) =
      TextLines.byte_index_from_char_index
        (TextLines.with_indent_width ("βx").data 4) 1 + 3 :=
  ⟨C10_bom_chars.1 ("βx").data 4 2 (by decide),
   C10_bom_chars.2.1 ("βx").data 4 ⟨3, 6, [⟨3, 1, 2⟩], []⟩ (by decide) ⟨3, 1, 2⟩
     (by decide),
   C10_bom_chars.2.2 ("βx").data 4 1 (by decide)⟩
